import Mathlib

/-!
Verification of the settingslib repository: a shallow embedding in Lean 4 of
the hierarchical config-file format (`settingslib/configfile.py`), of the
precedence-resolution engine (`settingslib/basesettings.py`) and of the list
resolver (`settingslib/resolvers.py`), together with proofs settling the
frozen claims about the specification.

Python lines of text are modelled as `List Char`; a text stream is modelled
as the list of its lines (Python's file iteration), which is exact for data
that contains no embedded newline characters.  Machine-level details that the
code never relies on (interning, unicode width) are out of scope.
-/

namespace Settingslib

/-- A single line of text, as the Python code sees it. -/
abbrev Line := List Char

/-- The whitespace characters stripped by Python's `str.strip()` /
`str.rstrip()` on the data handled here. -/
def pyWsChar (c : Char) : Bool := c = ' ' || c = '\t' || c = '\n' || c = '\r'

/-- Characters counting as leading indentation for the parser's
`re.match(r'([ \t]*)(.*)$', line)` split. -/
def indentChar (c : Char) : Bool := c = ' ' || c = '\t'

/-- Strip characters satisfying `p` from the right end (Python `rstrip`). -/
def rstripBy (p : Char → Bool) (l : Line) : Line :=
  (l.reverse.dropWhile p).reverse

/-- Strip characters satisfying `p` from both ends (Python `strip`). -/
def stripBy (p : Char → Bool) (l : Line) : Line :=
  rstripBy p (l.dropWhile p)

/-- Python `line.rstrip()`. -/
def pyRstrip (l : Line) : Line := rstripBy pyWsChar l

/-- Python `line.strip()`. -/
def pyStrip (l : Line) : Line := stripBy pyWsChar l

/-- Python `line.strip(' #')`, used for comment text. -/
def stripHashSpace (l : Line) : Line := stripBy (fun c => c = ' ' || c = '#') l

/-- Pad with spaces to the next multiple of four characters; this mirrors the
`while len(newline) % 4: newline.append(" ")` loop in `PushBackFile.untab`. -/
def padTo4 (l : Line) : Line :=
  l ++ List.replicate ((4 - l.length % 4) % 4) ' '

/-- Worker for `untab`: walk the line; a space is copied, a tab becomes one
space plus padding to a four-column stop; the first other character ends the
expansion and the rest of the line is copied verbatim
(`PushBackFile.untab` in `configfile.py`). -/
def untabGo : Line → Line → Line
  | acc, [] => acc
  | acc, c :: cs =>
    if c = ' ' then untabGo (acc ++ [' ']) cs
    else if c = '\t' then untabGo (padTo4 (acc ++ [' '])) cs
    else acc ++ c :: cs

/-- `PushBackFile.untab`: expand tabs in leading whitespace to spaces. -/
def untab (l : Line) : Line := untabGo [] l

/-- The processing `PushBackFile.next` applies to every delivered line:
`self.untab(line.rstrip())`. -/
def normLine (l : Line) : Line := untab (pyRstrip l)

/-- Python `list.pop()`: remove and return the last element. -/
def popLast : List α → Option (α × List α)
  | [] => none
  | [a] => some (a, [])
  | a :: b :: rest =>
    match popLast (b :: rest) with
    | some (x, rest2) => some (x, a :: rest2)
    | none => none

/-- The `PushBackFile` line reader of `configfile.py`: an underlying stream of
raw lines, the push-back list (`self.stack`: `push` inserts at index 0,
`next` pops from the end), and the running line number. -/
structure PushBackFile where
  stack : List Line
  input : List Line
  lineno : Int
  deriving Repr, DecidableEq

/-- `PushBackFile.next(stack=useStack)`.  Returns `none` for `StopIteration`.
With `useStack = false` the underlying stream is read even when the push-back
list is non-empty (the parser's look-ahead uses this). -/
def pbNext (useStack : Bool) (pb : PushBackFile) : Option (Line × PushBackFile) :=
  if useStack && !pb.stack.isEmpty then
    match popLast pb.stack with
    | some (l, st) => some (normLine l, ⟨st, pb.input, pb.lineno + 1⟩)
    | none => none
  else
    match pb.input with
    | [] => none
    | l :: rest => some (normLine l, ⟨pb.stack, rest, pb.lineno + 1⟩)

/-- `PushBackFile.push(line)`: line number decreases only for a non-empty
line; the line is inserted at index 0 of the push-back list. -/
def pbPush (l : Line) (pb : PushBackFile) : PushBackFile :=
  ⟨l :: pb.stack, pb.input, if l.isEmpty then pb.lineno else pb.lineno - 1⟩

/-- A `ConfigFile` value: either a scalar string or a nested node.  A node
`CVal.node entries comments seccomment autogrown` carries the ordered
key/value entries (`self.__values` plus the instance dictionary), the per-key
comment lines (`self.__comments`), the node's own section comment
(`self.__section_comment`) and the auto-grow flag (`self.__autogrown`). -/
inductive CVal : Type where
  | str : Line → CVal
  | node : List (Line × CVal) → List (Line × List Line) → List Line → Bool → CVal
  deriving Repr

mutual

/-- Boolean structural equality on `CVal` (used to build decidable equality,
not the Python `__eq__`, which is modelled separately). -/
def cvalBeq : CVal → CVal → Bool
  | .str a, .str b => a = b
  | .node es1 cs1 sc1 ag1, .node es2 cs2 sc2 ag2 =>
    centriesBeq es1 es2 && (decide (cs1 = cs2)) && (decide (sc1 = sc2)) && (ag1 == ag2)
  | .str _, .node _ _ _ _ => false
  | .node _ _ _ _, .str _ => false

/-- Boolean structural equality on entry lists. -/
def centriesBeq : List (Line × CVal) → List (Line × CVal) → Bool
  | [], [] => true
  | (k1, v1) :: r1, (k2, v2) :: r2 => decide (k1 = k2) && cvalBeq v1 v2 && centriesBeq r1 r2
  | [], _ :: _ => false
  | _ :: _, [] => false

end

mutual

theorem cvalBeq_eq : ∀ a b : CVal, cvalBeq a b = true ↔ a = b
  | .str a, .str b => by simp [cvalBeq]
  | .str _, .node _ _ _ _ => by simp [cvalBeq]
  | .node _ _ _ _, .str _ => by simp [cvalBeq]
  | .node es1 cs1 sc1 ag1, .node es2 cs2 sc2 ag2 => by
    simp [cvalBeq, centriesBeq_eq es1 es2, and_assoc]

theorem centriesBeq_eq : ∀ l1 l2 : List (Line × CVal), centriesBeq l1 l2 = true ↔ l1 = l2
  | [], [] => by simp [centriesBeq]
  | [], _ :: _ => by simp [centriesBeq]
  | _ :: _, [] => by simp [centriesBeq]
  | (k1, v1) :: r1, (k2, v2) :: r2 => by
    simp [centriesBeq, cvalBeq_eq v1 v2, centriesBeq_eq r1 r2, and_assoc]

end

instance : DecidableEq CVal := fun a b => decidable_of_iff _ (cvalBeq_eq a b)

/-- A fresh `ConfigFile()` as constructed by the parser: empty, auto-grown,
no help text. -/
def freshNode : CVal := .node [] [] [] true

/-- Association-list lookup, as `dict` lookup keyed by exact line equality. -/
def alistLookup (k : Line) : List (Line × α) → Option α
  | [] => none
  | (k2, v) :: rest => if k2 = k then some v else alistLookup k rest

/-- `ConfigFile.__setitem__`: assign the value and append the key to
`self.__values` only when it is not already present (so an existing key keeps
its position). -/
def alistSet (k : Line) (v : α) : List (Line × α) → List (Line × α)
  | [] => [(k, v)]
  | (k2, v2) :: rest =>
    if k2 = k then (k2, v) :: rest else (k2, v2) :: alistSet k v rest

/-- The keys of an association list, in insertion order. -/
def alistKeys (l : List (Line × α)) : List Line := l.map Prod.fst

/-- A line is substantive for the parser's look-ahead when, after `strip`,
it is non-empty and does not start with `#`
(`newline.strip() and not newline.strip().startswith("#")`). -/
def substLine (l : Line) : Bool :=
  match pyStrip l with
  | [] => false
  | c :: _ => c ≠ '#'

theorem pbNext_false_input {pb : PushBackFile} {l : Line} {pb1 : PushBackFile}
    (h : pbNext false pb = some (l, pb1)) : pb1.input.length + 1 = pb.input.length := by
  unfold pbNext at h
  simp only [Bool.false_and, if_neg Bool.false_ne_true] at h
  match hi : pb.input with
  | [] => rw [hi] at h; exact absurd h (by simp)
  | x :: rest =>
    rw [hi] at h
    simp only [Option.some.injEq, Prod.mk.injEq] at h
    rw [← h.2]
    simp

/-- The look-ahead loop after a section header
(`while True: newline = fp.next(stack=False); fp.push(newline); if ...`).
Every read line, substantive or not, is pushed back; the loop ends by
returning the first substantive line, or fails at end of input
(the `StopIteration` escapes the parser). -/
def peekFuel : Nat → PushBackFile → Option (Line × PushBackFile)
  | 0, _ => none
  | f + 1, pb =>
    match pbNext false pb with
    | none => none
    | some (nl, pb1) =>
      if substLine nl then some (nl, pbPush nl pb1)
      else peekFuel f (pbPush nl pb1)

/-- The look-ahead loop, at the fuel that always suffices: each iteration
consumes one line of the underlying input (`next(stack=False)` never reads
the push-back list), so the loop runs at most `input.length` iterations
before the end of input. -/
def peekLoop (pb : PushBackFile) : Option (Line × PushBackFile) :=
  peekFuel (pb.input.length + 1) pb

/-- Python `right.split(c, 1)[0]`: the part before the first occurrence of
`c` (the whole line if absent; the parser only splits after a membership
test). -/
def splitFst (c : Char) : Line → Line
  | [] => []
  | x :: rest => if x = c then [] else x :: splitFst c rest

/-- Python `right.split(c, 1)[1]`: the part after the first occurrence. -/
def splitSnd (c : Char) : Line → Line
  | [] => []
  | x :: rest => if x = c then rest else splitSnd c rest

/-- The mutable state of one `ConfigFile.read_helper` invocation: the node
being built (`entries`, `comments`, `seccomment` live on the `ConfigFile`)
plus the loop locals (`section_comment_open`, the pending comment buffer and
the last seen key). -/
structure RHState where
  entries : List (Line × CVal)
  comments : List (Line × List Line)
  seccomment : List Line
  scOpen : Bool
  cbuf : List Line
  lastKey : Option Line
  deriving Repr, DecidableEq

/-- The state `read_helper` starts from on a fresh `ConfigFile`. -/
def freshRH : RHState := ⟨[], [], [], false, [], none⟩

/-- `ConfigFile.read_helper(fp, indent)`, line by line; `fuel` bounds the
recursion (every recursive call decrements it; `none` covers both raised
exceptions and exhausted fuel, and a sufficiently large fuel is always
enough, see `readHelper_mono`).  Only the length of the `indent` string is
ever used by the Python code, so the parameter is that length.  Branches, in
source order: blank line, comment handling, dedent (push back and return),
continuation of the previous key, new section (with look-ahead and possible
recursion), and `key = value`. -/
def readHelper : Nat → PushBackFile → Nat → RHState → Option (RHState × PushBackFile)
  | 0, _, _, _ => none
  | Nat.succ f, pb, indent, st =>
    match pbNext true pb with
    | none => some (st, pb)
    | some (line, pb1) =>
      let left := line.takeWhile indentChar
      let right := line.dropWhile indentChar
      match right with
      | [] => readHelper f pb1 indent st
      | c :: _ =>
        if c = '#' then
          if right.take 5 = ['#', '#', '#', '#', '#'] then
            readHelper f pb1 indent { st with scOpen := !st.scOpen }
          else if st.scOpen then
            readHelper f pb1 indent
              { st with seccomment := st.seccomment ++ [stripHashSpace (right.drop 1)] }
          else
            readHelper f pb1 indent { st with cbuf := st.cbuf ++ [stripHashSpace right] }
        else if left.length < indent then
          some (st, pbPush line pb1)
        else if indent < left.length then
          match st.lastKey with
          | none => none
          | some kraw =>
            if kraw.isEmpty then none
            else
              let ks := pyStrip kraw
              match alistLookup ks st.entries with
              | some (.str s) =>
                let entries2 := alistSet ks (.str (s ++ ' ' :: right)) st.entries
                if st.cbuf.isEmpty then
                  readHelper f pb1 indent { st with entries := entries2 }
                else
                  match alistLookup ks st.comments with
                  | some cls =>
                    readHelper f pb1 indent
                      { st with entries := entries2,
                                comments := alistSet ks (cls ++ st.cbuf) st.comments,
                                cbuf := [] }
                  | none => none
              | some (.node _ _ _ _) => none
              | none => none
        else if right.getLast? = some ':' then
          let sectionKey := pyStrip right.dropLast
          if sectionKey.isEmpty then none
          else
            match peekLoop pb1 with
            | none => none
            | some (nl, pb2) =>
              let newIndent := (nl.takeWhile indentChar).length
              if !nl.isEmpty && decide (indent < newIndent) then
                match readHelper f pb2 newIndent freshRH with
                | none => none
                | some (cst, pb3) =>
                  readHelper f pb3 indent
                    { st with
                        entries := alistSet sectionKey
                          (.node cst.entries cst.comments cst.seccomment true) st.entries,
                        cbuf := [] }
              else
                readHelper f pb2 indent
                  { st with entries := alistSet sectionKey freshNode st.entries, cbuf := [] }
        else
          let kraw := if right.contains '=' then splitFst '=' right else right
          let val0 := if right.contains '=' then splitSnd '=' right else []
          let hasCmt := right.contains '=' && val0.contains '#'
          let val := if hasCmt then splitFst '#' right else val0
          let cbuf2 := if hasCmt then st.cbuf ++ [splitSnd '#' right] else st.cbuf
          let ks := pyStrip kraw
          readHelper f pb1 indent
            { st with
                entries := alistSet ks (.str (pyStrip val)) st.entries,
                comments := alistSet ks cbuf2 st.comments,
                cbuf := [],
                lastKey := some kraw }

/-- `ConfigFile.read` on a fresh `ConfigFile()`: run `read_helper` over the
lines with expected indentation `""` and package the resulting node. -/
def readConfig (fuel : Nat) (lines : List Line) : Option CVal :=
  match readHelper fuel ⟨[], lines, 0⟩ 0 freshRH with
  | some (st, _) => some (.node st.entries st.comments st.seccomment true)
  | none => none

/-- The width accumulator of the section-comment box in `ConfigFile.write`
(note the source compares against `len(line.strip())` but stores
`len(line)`). -/
def boxWidth (sc : List Line) : Nat :=
  sc.foldl (fun L line => if L < (pyStrip line).length then line.length else L) 5

/-- Python `line.ljust(n)`. -/
def ljust (l : Line) (n : Nat) : Line := l ++ List.replicate (n - l.length) ' '

/-- The boxed section comment rendered by `ConfigFile.write`. -/
def boxOf (sc : List Line) : List Line :=
  if sc.isEmpty then []
  else
    let L := boxWidth sc + 4
    [List.replicate L '#']
      ++ sc.map (fun line => '#' :: ' ' :: (ljust line (L - 4) ++ [' ', '#']))
      ++ [List.replicate L '#']

mutual

/-- `ConfigFile.write(fp)`, as the list of lines written: the boxed section
comment, then each entry in insertion order -- a subnode becomes a blank
line, `key:`, and the subnode's lines indented by four spaces; a scalar
becomes its comment lines and `key = value`.  (`write` is only invoked on
nodes; the scalar case is unreachable and returns no lines.) -/
def configWrite : CVal → List Line
  | .str _ => []
  | .node es cs sc _ => boxOf sc ++ writeEntries cs es

/-- The per-entry part of `ConfigFile.write`. -/
def writeEntries (cs : List (Line × List Line)) : List (Line × CVal) → List Line
  | [] => []
  | (k, .node es2 cs2 sc2 ag2) :: rest =>
    ([] :: (k ++ [':'])
        :: (configWrite (.node es2 cs2 sc2 ag2)).map (fun l => ' ' :: ' ' :: ' ' :: ' ' :: l))
      ++ writeEntries cs rest
  | (k, .str v) :: rest =>
    ((match alistLookup k cs with
      | some cls => cls.map (fun cl => '#' :: ' ' :: cl)
      | none => []) ++ [k ++ ' ' :: '=' :: ' ' :: v])
      ++ writeEntries cs rest

end

/-- A config value with the comment annotations and the auto-grow flag
erased: exactly the keys and the (recursively resolved) values. -/
inductive SVal : Type where
  | str : Line → SVal
  | node : List (Line × SVal) → SVal
  deriving Repr

mutual

/-- Boolean structural equality on `SVal`. -/
def svalBeq : SVal → SVal → Bool
  | .str a, .str b => a = b
  | .node l1, .node l2 => sentriesBeq l1 l2
  | .str _, .node _ => false
  | .node _, .str _ => false

/-- Boolean structural equality on stripped entry lists. -/
def sentriesBeq : List (Line × SVal) → List (Line × SVal) → Bool
  | [], [] => true
  | (k1, v1) :: r1, (k2, v2) :: r2 => decide (k1 = k2) && svalBeq v1 v2 && sentriesBeq r1 r2
  | [], _ :: _ => false
  | _ :: _, [] => false

end

mutual

theorem svalBeq_eq : ∀ a b : SVal, svalBeq a b = true ↔ a = b
  | .str a, .str b => by simp [svalBeq]
  | .str _, .node _ => by simp [svalBeq]
  | .node _, .str _ => by simp [svalBeq]
  | .node l1, .node l2 => by simp [svalBeq, sentriesBeq_eq l1 l2]

theorem sentriesBeq_eq : ∀ l1 l2 : List (Line × SVal), sentriesBeq l1 l2 = true ↔ l1 = l2
  | [], [] => by simp [sentriesBeq]
  | [], _ :: _ => by simp [sentriesBeq]
  | _ :: _, [] => by simp [sentriesBeq]
  | (k1, v1) :: r1, (k2, v2) :: r2 => by
    simp [sentriesBeq, svalBeq_eq v1 v2, sentriesBeq_eq r1 r2, and_assoc]

end

instance : DecidableEq SVal := fun a b => decidable_of_iff _ (svalBeq_eq a b)

mutual

/-- Erase comments and flags from a config value, keeping keys and values. -/
def stripMeta : CVal → SVal
  | .str s => .str s
  | .node es _ _ _ => .node (stripMetaEntries es)

/-- Erase comments and flags from an entry list. -/
def stripMetaEntries : List (Line × CVal) → List (Line × SVal)
  | [] => []
  | (k, v) :: rest => (k, stripMeta v) :: stripMetaEntries rest

end

/-! ## ConfigFile item access and Python-2 comparison (`configfile.py`) -/

/-- `ConfigFile.__getitem__` / `__getattr__`: a present key returns its
value; an absent key either auto-grows (bind the key to a fresh auto-grown
empty node, append it to `self.__values`, return it) or raises `KeyError`.
The possibly mutated node is returned alongside the result. -/
def configGetitem (t : CVal) (k : Line) : Except Unit CVal × CVal :=
  match t with
  | .str _ => (.error (), t)
  | .node es cs sc ag =>
    match alistLookup k es with
    | some v => (.ok v, t)
    | none =>
      if ag then (.ok freshNode, .node (es ++ [(k, freshNode)]) cs sc ag)
      else (.error (), t)

/-- Python-2 `cmp` on byte strings: lexicographic by character code, shorter
prefix first. -/
def strCmp : Line → Line → Int
  | [], [] => 0
  | [], _ :: _ => -1
  | _ :: _, [] => 1
  | a :: as, b :: bs =>
    if a.toNat < b.toNat then -1 else if b.toNat < a.toNat then 1 else strCmp as bs

/-- Insert into an ascending list (helper for Python-2 `list.sort()`). -/
def insSorted (x : Line) : List Line → List Line
  | [] => [x]
  | y :: rest => if strCmp y x ≤ 0 then y :: insSorted x rest else x :: y :: rest

/-- Python-2 `list.sort()` on a list of strings: ascending order. -/
def sortLines (l : List Line) : List Line := l.foldl (fun acc x => insSorted x acc) []

/-- Python-2 `cmp` on two lists of strings: elementwise, then by length. -/
def listCmpStr : List Line → List Line → Int
  | [], [] => 0
  | [], _ :: _ => -1
  | _ :: _, [] => 1
  | a :: as, b :: bs =>
    let c := strCmp a b
    if c = 0 then listCmpStr as bs else c

/-- The `for attr in v1` loop of `ConfigFile.__cmp__`, parameterized by the
comparison used on a pair of stored values. -/
def cmpLoop (cmpv : CVal → CVal → Option Int) :
    List (Line × CVal) → CVal → List Line → Option Int
  | _, _, [] => some 0
  | es, other, attr :: rest =>
    match alistLookup attr es with
    | none => none
    | some sv =>
      match configGetitem other attr with
      | (.ok ov, other2) =>
        match cmpv sv ov with
        | none => none
        | some c => if c = 0 then cmpLoop cmpv es other2 rest else some c
      | (.error _, _) => none

/-- `cmp` applied to two stored values: strings compare as Python-2 strings,
nodes recurse through `__cmp__` (supplied as `rec`); comparisons between a
string and a node fall into CPython-2 mixed-type coercion, which the source
never relies on and which is modelled as a failure. -/
def cmpValues (rec : CVal → CVal → Option Int) : CVal → CVal → Option Int
  | .str a, .str b => some (strCmp a b)
  | .node es cs sc ag, .node es2 cs2 sc2 ag2 =>
    rec (.node es cs sc ag) (.node es2 cs2 sc2 ag2)
  | .str _, .node _ _ _ _ => none
  | .node _ _ _ _, .str _ => none

/-- `ConfigFile.__cmp__(other)`.  Note the source builds BOTH sorted key
lists from `self.__values` (`v1` and `v2` are both copies of the same list),
so the initial list comparison is always `0`; only self's keys are then
compared value by value, looking each key up on `other` (which may
auto-grow).  Mutation of `other` cannot change the comparison's result
(every key is looked up once), so the other node is not threaded through.
`none` models a raised exception (e.g. `KeyError` from a non-auto-grown
`other`); `fuel` bounds the nesting recursion. -/
def pyCmp : Nat → CVal → CVal → Option Int
  | 0, _, _ => none
  | _ + 1, .str _, _ => none
  | f + 1, .node es cs sc ag, other =>
    let v1 := sortLines (alistKeys es)
    let v2 := sortLines (alistKeys es)
    let r0 := listCmpStr v1 v2
    if r0 = 0 then cmpLoop (cmpValues (pyCmp f)) es other v1 else some r0

/-- `ConfigFile.__eq__`: equality holds iff the other value is a
`ConfigFile` and `__cmp__` returns `0`; `none` when `__cmp__` raises. -/
def pyEq (fuel : Nat) (a b : CVal) : Option Bool :=
  match b with
  | .str _ => some false
  | .node _ _ _ _ => (pyCmp fuel a b).map (fun r => decide (r = 0))

/-! ## The settings resolution engine (`basesettings.py`) -/

/-- Errors raised by the engine: `AttributeError` for a non-upper-case key,
`AttributeError` for a key absent from every source, `KeyError` from an
internal dictionary, `SettingsException` from validation,
`UnboundLocalError` from `Section.help` (which reads the local variable
`settings` before any assignment whenever a key is passed), and a dynamic
type failure when a looked-up value is used as a `Section`. -/
inductive SettingsErr where
  | attrNotUpper
  | attrNotFound
  | keyError
  | invalidValue
  | unboundLocal
  | notASection
  deriving Repr, DecidableEq

/-- One bound resolver, through the interface `Section` uses: `get` (decode),
`raw` (encode) and `validate`. -/
structure PyResolver (V : Type) where
  get : V → V
  raw : V → V
  validate : V → Bool

/-- The per-key extra options consulted by the engine (`save`, `solid`; the
`callback`/`initialize` hooks are recorded as invocation events). -/
structure ExtraOptions where
  save : Bool
  solid : Bool
  deriving Repr, DecidableEq

/-- A settings node (`Section`), with its six value sources, the bound
resolvers and the per-key extra options.  The writable user `ConfigFile` is
viewed through the operations the engine uses on it: its key/raw-value
mapping plus its per-key comments (written by `set_help`).  `helpDict`
holds the harvested per-key help strings. -/
structure SettingsSection (V : Type) where
  options : List (Line × V)
  userconfig : List (Line × V)
  userconfigComments : List (Line × List Line)
  nosave : List (Line × V)
  envconfig : List (Line × V)
  fileconfigs : List (List (Line × V))
  defaults : List (Line × V)
  resolvers : List (Line × PyResolver V)
  extraOptions : List (Line × ExtraOptions)
  helpDict : List (Line × Line)

/-- Python `str.isupper()`: at least one cased character and no lower-case
cased character. -/
def pyIsUpper (l : Line) : Bool :=
  l.any (fun c => c.isAlpha) && !(l.any (fun c => c.isLower))

/-- Python `str.lower()`. -/
def pyLower (l : Line) : Line := l.map Char.toLower

/-- Python `str.upper()`. -/
def pyUpper (l : Line) : Line := l.map Char.toUpper

/-- The probe order of `Section.__getattr__`:
`[self.options, self.userconfig, self.nosave, self.envconfig] +
self.fileconfigs + [self.defaults]`. -/
def sourcesOf (sec : SettingsSection V) : List (List (Line × V)) :=
  [sec.options, sec.userconfig, sec.nosave, sec.envconfig]
    ++ sec.fileconfigs ++ [sec.defaults]

/-- First source whose mapping contains the key, and its value there. -/
def firstLookup (k : Line) : List (List (Line × V)) → Option V
  | [] => none
  | m :: rest =>
    match alistLookup k m with
    | some v => some v
    | none => firstLookup k rest

/-- The winning raw value for a key, if any source contains it. -/
def firstSource (sec : SettingsSection V) (k : Line) : Option V :=
  firstLookup k (sourcesOf sec)

/-- `Section.__getattr__`: reject non-upper keys, lower-case the key; a
`solid` key returns its default as-is; otherwise probe the sources in order
and decode the first hit with the bound resolver; fail with an
`AttributeError` when no source contains the key. -/
def Section.getattr (sec : SettingsSection V) (key : Line) : Except SettingsErr V :=
  if !pyIsUpper key then .error .attrNotUpper
  else
    match alistLookup (pyLower key) sec.extraOptions with
    | none => .error .keyError
    | some ex =>
      if ex.solid then
        match alistLookup (pyLower key) sec.defaults with
        | some d => .ok d
        | none => .error .keyError
      else
        match firstSource sec (pyLower key) with
        | some v =>
          match alistLookup (pyLower key) sec.resolvers with
          | some r => .ok (r.get v)
          | none => .error .keyError
        | none => .error .attrNotFound

/-- The outcome of a write: the raised/ok status, the (possibly unchanged)
state, the recorded `callback(key, value)` invocations, and any plain
object attribute writes (the non-upper-case branch of `__setattr__`). -/
structure SetResult (V : Type) where
  res : Except SettingsErr Unit
  state : SettingsSection V
  callbacks : List (Line × V)
  objectAttrs : List (Line × V)

/-- Python `str.split('\n')` (used by `ConfigFile.set_help`). -/
def splitOnNl (l : Line) : List Line :=
  match l with
  | [] => [[]]
  | x :: rest =>
    match splitOnNl rest with
    | [] => [[]]
    | h :: t => if x = '\n' then [] :: h :: t else (x :: h) :: t

/-- `Section.__setattr__`: a non-upper key is a plain object attribute
write.  Otherwise the bound resolver's `validate` gates the write: a
negative result raises `SettingsException` with nothing mutated and no
callback.  On success with `save` enabled the encoded value is written into
the user config; the subsequent `set_help(key, self.help(key))` call then
raises `UnboundLocalError` inside `Section.help` (the function reads the
local `settings` before assignment for every non-`None` key), so the write
ends with that exception, after the user config mutation and before the
callback.  With `save` disabled the raw value goes to the in-memory store
and the callback runs. -/
def Section.setattr (sec : SettingsSection V) (key : Line) (v : V) : SetResult V :=
  if !pyIsUpper key then ⟨.ok (), sec, [], [(key, v)]⟩
  else
    match alistLookup (pyLower key) sec.resolvers with
    | none => ⟨.error .keyError, sec, [], []⟩
    | some r =>
      if r.validate v then
        match alistLookup (pyLower key) sec.extraOptions with
        | none => ⟨.error .keyError, sec, [], []⟩
        | some ex =>
          if ex.save then
            ⟨.error .unboundLocal,
              { sec with userconfig := alistSet (pyLower key) (r.raw v) sec.userconfig },
              [], []⟩
          else
            ⟨.ok (), { sec with nosave := alistSet (pyLower key) v sec.nosave },
              [(key, v)], []⟩
      else ⟨.error .invalidValue, sec, [], []⟩

/-- The path walk shared by `Section.get`/`Section.set`: each non-terminal
dotted component is resolved through `__getattr__` and the result is used as
the next `Section`.  Dynamic typing is modelled by the caller-supplied
`asSection` view of values.  `Section.get` upper-cases each component
(`settings.__getattr__(k.upper())`); `Section.set` passes the component
through unchanged (`settings.__getattr__(k)`), which the `upcase` flag
distinguishes. -/
def walkPath (asSection : V → Option (SettingsSection V)) (upcase : Bool) :
    SettingsSection V → List Line → Except SettingsErr (SettingsSection V)
  | sec, [] => .ok sec
  | sec, k :: rest =>
    match Section.getattr sec (if upcase then pyUpper k else k) with
    | .error e => .error e
    | .ok v =>
      match asSection v with
      | some sec2 => walkPath asSection upcase sec2 rest
      | none => .error .notASection

/-- Python `str.split('.')`. -/
def splitDots (l : Line) : List Line :=
  match l with
  | [] => [[]]
  | x :: rest =>
    match splitDots rest with
    | [] => [[]]
    | h :: t => if x = '.' then [] :: h :: t else (x :: h) :: t

/-- `Section.get(key)`: walk the dotted path with each component
upper-cased, then `__getattr__` of the upper-cased terminal component. -/
def Section.getPath (asSection : V → Option (SettingsSection V))
    (sec : SettingsSection V) (key : Line) : Except SettingsErr V :=
  let parts := splitDots key
  match walkPath asSection true sec parts.dropLast with
  | .error e => .error e
  | .ok secN => Section.getattr secN (pyUpper (parts.getLastD []))

/-- `Section.set(key, value)`: walk the dotted path with the components NOT
upper-cased (`settings.__getattr__(k)` in the source), then `__setattr__` of
the upper-cased terminal component on the reached section. -/
def Section.setPath (asSection : V → Option (SettingsSection V))
    (sec : SettingsSection V) (key : Line) (v : V) : Except SettingsErr (SetResult V) :=
  let parts := splitDots key
  match walkPath asSection false sec parts.dropLast with
  | .error e => .error e
  | .ok secN => .ok (Section.setattr secN (pyUpper (parts.getLastD [])) v)

/-! ## The list resolver (`resolvers.py`) -/

/-- The dynamic values the list-resolver claims exercise: integers, strings
and lists. -/
inductive PyVal : Type where
  | int : Int → PyVal
  | str : Line → PyVal
  | list : List PyVal → PyVal
  deriving Repr

mutual

/-- Boolean structural equality on `PyVal`. -/
def pyValBeq : PyVal → PyVal → Bool
  | .int a, .int b => a == b
  | .str a, .str b => decide (a = b)
  | .list a, .list b => pyValListBeq a b
  | .int _, .str _ => false
  | .int _, .list _ => false
  | .str _, .int _ => false
  | .str _, .list _ => false
  | .list _, .int _ => false
  | .list _, .str _ => false

/-- Boolean structural equality on `PyVal` lists. -/
def pyValListBeq : List PyVal → List PyVal → Bool
  | [], [] => true
  | a :: as, b :: bs => pyValBeq a b && pyValListBeq as bs
  | [], _ :: _ => false
  | _ :: _, [] => false

end

mutual

theorem pyValBeq_eq : ∀ a b : PyVal, pyValBeq a b = true ↔ a = b
  | .int a, .int b => by simp [pyValBeq]
  | .str a, .str b => by simp [pyValBeq]
  | .list a, .list b => by simp [pyValBeq, pyValListBeq_eq a b]
  | .int _, .str _ => by simp [pyValBeq]
  | .int _, .list _ => by simp [pyValBeq]
  | .str _, .int _ => by simp [pyValBeq]
  | .str _, .list _ => by simp [pyValBeq]
  | .list _, .int _ => by simp [pyValBeq]
  | .list _, .str _ => by simp [pyValBeq]

theorem pyValListBeq_eq : ∀ a b : List PyVal, pyValListBeq a b = true ↔ a = b
  | [], [] => by simp [pyValListBeq]
  | [], _ :: _ => by simp [pyValListBeq]
  | _ :: _, [] => by simp [pyValListBeq]
  | a :: as, b :: bs => by simp [pyValListBeq, pyValBeq_eq a b, pyValListBeq_eq as bs]

end

instance : DecidableEq PyVal := fun a b => decidable_of_iff _ (pyValBeq_eq a b)

/-- Python `str(value)` restricted to the values the default
`SettingsResolver.raw` is applied to here (integers render in decimal,
strings render as themselves). -/
def pyStrOf : PyVal → Line
  | .int n => (toString n).data
  | .str s => s
  | .list _ => []

/-- Python `int(value)` on the values exercised here: an `int` passes
through; a string of optional sign and digits parses; anything else raises
(`none`).  Mirrors `IntSettingsResolver.get`. -/
def intResolverGet : PyVal → Option PyVal
  | .int n => some (.int n)
  | .str s =>
    let t := pyStrip s
    match t with
    | '-' :: ds => if ds ≠ [] && ds.all Char.isDigit then
        some (.int (-(Int.ofNat (ds.foldl (fun a c => a * 10 + (c.toNat - 48)) 0)))) else none
    | ds => if ds ≠ [] && ds.all Char.isDigit then
        some (.int (Int.ofNat (ds.foldl (fun a c => a * 10 + (c.toNat - 48)) 0))) else none
  | .list _ => none

/-- JSON string escaping for `json.dumps` on the strings arising here
(quotes and backslashes; control characters do not occur in this data). -/
def jsonEscape (s : Line) : Line :=
  s.flatMap (fun c => if c = '"' || c = '\\' then ['\\', c] else [c])

/-- Join with a separator. -/
def joinSep (sep : Line) : List Line → Line
  | [] => []
  | [x] => x
  | x :: y :: rest => x ++ sep ++ joinSep sep (y :: rest)

/-- `json.dumps` applied to a list of Python strings, with the default
`', '` separator: `["a", "b"]`. -/
def jsonDumpStrs (l : List Line) : Line :=
  '[' :: (joinSep [',', ' '] (l.map (fun s => '"' :: (jsonEscape s ++ ['"'])))) ++ [']']

/-- The configuration of one `ListSettingsResolver` that the claims
exercise: the child resolver's `get` and `raw` and the optional `sort`
function.  (`get_key`, an identity search over `settings.resolvers`, is
modelled by carrying the resolved key.) -/
structure ListResolverModel where
  childGet : PyVal → Option PyVal
  childRaw : PyVal → Line
  sortf : Option (List PyVal → List PyVal)

/-- `ListSettingsResolver._raw`:
`json.dumps([self.resolver.raw(value) for value in values])`. -/
def listRaw (r : ListResolverModel) (values : List PyVal) : Line :=
  jsonDumpStrs (values.map r.childRaw)

/-- The state of a returned `SyncList` proxy: the backing list `self._l`
and the key it synchronizes (`self._key`). -/
structure SyncListState where
  l : List PyVal
  key : Line
  deriving Repr, DecidableEq

/-- `ListSettingsResolver.get(values)`: a raw `list` value is copied into a
fresh `SyncList` bound to the resolver's key; receiving a `SyncList` raises;
the string case goes through `_get` (`json.loads` plus the child resolver),
which the claims never reach and which is left as a failure. -/
def listResolverGet (key : Line) (values : PyVal) : Option SyncListState :=
  match values with
  | .list l => some ⟨l, key⟩
  | .str _ => none
  | .int _ => none

/-- `SyncList.append(v)` followed by the private `__sync`: the appended
element goes through the child resolver's `get`, the optional solid sort
reorders, and the encoded list is written into the user config under the
lower-cased key -- with no explicit `set` call. -/
def syncListAppend (r : ListResolverModel) (sl : SyncListState) (v : PyVal)
    (userconfig : List (Line × PyVal)) :
    Option (SyncListState × List (Line × PyVal)) :=
  match r.childGet v with
  | none => none
  | some v2 =>
    let l2 := sl.l ++ [v2]
    let l3 := match r.sortf with | some f => f l2 | none => l2
    some (⟨l3, sl.key⟩, alistSet (pyLower sl.key) (.str (listRaw r l3)) userconfig)

/-- A concrete settings node witnessing C1. -/
def c1Resolver : PyResolver Int := ⟨fun v => v + 1, fun v => v, fun _ => true⟩

/-- A concrete settings node witnessing C1: the key is present in the user
config and in the defaults, so the user config must win. -/
def c1Section : SettingsSection Int :=
  { options := []
    userconfig := [(('k' :: []), 7)]
    userconfigComments := []
    nosave := [(('k' :: []), 100)]
    envconfig := []
    fileconfigs := []
    defaults := [(('k' :: []), 1)]
    resolvers := [(('k' :: []), c1Resolver)]
    extraOptions := [(('k' :: []), ⟨true, false⟩)]
    helpDict := [] }

/-- A resolver rejecting every value, for the C3 witness. -/
def c3Resolver : PyResolver Int := ⟨fun v => v, fun v => v, fun _ => false⟩

/-- A concrete settings node for the C3 witness. -/
def c3Section : SettingsSection Int :=
  { options := []
    userconfig := []
    userconfigComments := []
    nosave := []
    envconfig := []
    fileconfigs := []
    defaults := [(('k' :: []), 1)]
    resolvers := [(('k' :: []), c3Resolver)]
    extraOptions := [(('k' :: []), ⟨true, false⟩)]
    helpDict := [] }

/-- A concrete settings node for the C4 witness: solid key with default 1,
overridden (ignored) in options and the user config. -/
def c4Section : SettingsSection Int :=
  { options := [(('k' :: []), 50)]
    userconfig := [(('k' :: []), 60)]
    userconfigComments := []
    nosave := []
    envconfig := []
    fileconfigs := []
    defaults := [(('k' :: []), 1)]
    resolvers := [(('k' :: []), c1Resolver)]
    extraOptions := [(('k' :: []), ⟨true, true⟩)]
    helpDict := [] }

/-- The empty line reader used by the C6 counterexample. -/
def c6Reader : PushBackFile := ⟨[], [], 0⟩

/-- The keys of a config node. -/
def cvalKeys : CVal → List Line
  | .str _ => []
  | .node es _ _ _ => alistKeys es

/-- An empty tree, for C7. -/
def c7Empty : CVal := .node [] [] [] true

/-- A one-key tree, for C7. -/
def c7OneKey : CVal := .node [(("level1").data, .str (("new val").data))] [] [] true

/-- The list resolver bound for a `[1]` default: the child resolver is the
`int` resolver (chosen from the first element's class), whose `raw` is the
inherited `str(value)`; no solid sort. -/
def intListResolver : ListResolverModel := ⟨intResolverGet, pyStrOf, none⟩

/-- The key of the C9 scenario. -/
def c9Key : Line := ("someintlist").data

/-- The C9 settings node: list default `[1]`, every other source empty. -/
def c9Section : SettingsSection PyVal :=
  { options := []
    userconfig := []
    userconfigComments := []
    nosave := []
    envconfig := []
    fileconfigs := []
    defaults := [(c9Key, .list [.int 1])]
    resolvers := []
    extraOptions := [(c9Key, ⟨true, false⟩)]
    helpDict := [] }

/-! ## Round-trip (C2): well-formedness and stream vocabulary -/

/-- A line with no surrounding whitespace and no embedded line breaks: the
format can store it without alteration. -/
def niceLine (l : Line) : Bool :=
  l.all (fun c => c ≠ '\n' && c ≠ '\r') &&
  (match l with | [] => true | c :: _ => !pyWsChar c) &&
  (match l.getLast? with | none => true | some c => !pyWsChar c)

/-- A key the format serializes and re-parses verbatim: non-empty, no
surrounding whitespace, not starting with `#`, containing no `=`. -/
def wfKey (k : Line) : Bool :=
  !k.isEmpty && niceLine k && !(k.headD ' ' == '#') && !k.contains '='

/-- A scalar value the format serializes and re-parses verbatim: no
surrounding whitespace, no `#` (reserved for inline comments), not ending in
`:` (reserved for section headers). -/
def wfVal (v : Line) : Bool :=
  niceLine v && !v.contains '#' && !(v.getLast? == some ':')

/-- A comment line the serializer can emit without breaking the line
structure: no embedded line breaks. -/
def wfCmt (c : Line) : Bool := c.all (fun x => x ≠ '\n' && x ≠ '\r')

mutual

/-- Well-formed config values: scalars and keys verbatim-serializable, keys
unique per node, comment text free of line breaks. -/
def wfCVal : CVal → Bool
  | .str v => wfVal v
  | .node es cs sc _ =>
    wfEntries es && decide (alistKeys es).Nodup &&
    cs.all (fun p => p.2.all wfCmt) && sc.all wfCmt

/-- Well-formed entry lists. -/
def wfEntries : List (Line × CVal) → Bool
  | [] => true
  | (k, v) :: rest => wfKey k && wfCVal v && wfEntries rest

end

mutual

/-- The trailing-section condition: walking last entries, every section on
the rightmost spine is non-empty (otherwise the parser's look-ahead hits the
end of input and the raised `StopIteration` aborts the parse). -/

def okEndCVal : CVal → Bool
  | .str _ => true
  | .node es _ _ _ => okEndEntries es

/-- `okEndCVal` on entry lists (only the last entry matters). -/
def okEndEntries : List (Line × CVal) → Bool
  | [] => true
  | [(_, .str _)] => true
  | [(_, .node es2 _ _ _)] => !es2.isEmpty && okEndEntries es2
  | _ :: e2 :: rest => okEndEntries (e2 :: rest)

end

/-- Prefix every line with `m` spaces (nesting the serializer's four-space
indent `m/4` times). -/
def indentLines (m : Nat) (ls : List Line) : List Line :=
  ls.map (fun l => List.replicate m ' ' ++ l)

/-- The length of the leading-whitespace run the parser measures. -/
def wsLen (l : Line) : Nat := (l.takeWhile indentChar).length

/-- A line the parser treats as blank or comment (both leave the entries,
the last key and the reader position's tail untouched). -/
def nsBranchLine (l : Line) : Bool :=
  match (normLine l).dropWhile indentChar with
  | [] => true
  | c :: _ => c = '#'

/-- All lines of the list are blank-or-comment lines. -/
def allNS (ls : List Line) : Prop := ∀ l ∈ ls, nsBranchLine l = true

/-- A serialized `key = value` line at physical indent `m`. -/
def rawKv (m : Nat) (k v : Line) : Line :=
  List.replicate m ' ' ++ k ++ ' ' :: '=' :: ' ' :: v

/-- A serialized `key:` section header at physical indent `m`. -/
def rawSec (m : Nat) (k : Line) : Line :=
  List.replicate m ' ' ++ k ++ [':']

/-- The step body of `read_helper` on one already-delivered line, factored
out of `readHelper` for the proofs; `readHelper_succ_eq` shows `readHelper`
steps through it. -/
def rhStep (f : Nat) (line : Line) (pb1 : PushBackFile) (indent : Nat) (st : RHState) :
    Option (RHState × PushBackFile) :=
  match line.dropWhile indentChar with
  | [] => readHelper f pb1 indent st
  | c :: _ =>
    if c = '#' then
      if (line.dropWhile indentChar).take 5 = ['#', '#', '#', '#', '#'] then
        readHelper f pb1 indent { st with scOpen := !st.scOpen }
      else if st.scOpen then
        readHelper f pb1 indent
          { st with
              seccomment :=
                st.seccomment ++ [stripHashSpace ((line.dropWhile indentChar).drop 1)] }
      else
        readHelper f pb1 indent
          { st with cbuf := st.cbuf ++ [stripHashSpace (line.dropWhile indentChar)] }
    else if (line.takeWhile indentChar).length < indent then
      some (st, pbPush line pb1)
    else if indent < (line.takeWhile indentChar).length then
      match st.lastKey with
      | none => none
      | some kraw =>
        if kraw.isEmpty then none
        else
          match alistLookup (pyStrip kraw) st.entries with
          | some (.str s) =>
            if st.cbuf.isEmpty then
              readHelper f pb1 indent
                { st with
                    entries := alistSet (pyStrip kraw)
                      (.str (s ++ ' ' :: line.dropWhile indentChar)) st.entries }
            else
              match alistLookup (pyStrip kraw) st.comments with
              | some cls =>
                readHelper f pb1 indent
                  { st with
                      entries := alistSet (pyStrip kraw)
                        (.str (s ++ ' ' :: line.dropWhile indentChar)) st.entries,
                      comments := alistSet (pyStrip kraw) (cls ++ st.cbuf) st.comments,
                      cbuf := [] }
              | none => none
          | some (.node _ _ _ _) => none
          | none => none
    else if (line.dropWhile indentChar).getLast? = some ':' then
      if (pyStrip (line.dropWhile indentChar).dropLast).isEmpty then none
      else
        match peekLoop pb1 with
        | none => none
        | some (nl, pb2) =>
          if !nl.isEmpty && decide (indent < (nl.takeWhile indentChar).length) then
            match readHelper f pb2 (nl.takeWhile indentChar).length freshRH with
            | none => none
            | some (cst, pb3) =>
              readHelper f pb3 indent
                { st with
                    entries := alistSet (pyStrip (line.dropWhile indentChar).dropLast)
                      (.node cst.entries cst.comments cst.seccomment true) st.entries,
                    cbuf := [] }
          else
            readHelper f pb2 indent
              { st with
                  entries := alistSet (pyStrip (line.dropWhile indentChar).dropLast)
                    freshNode st.entries,
                  cbuf := [] }
    else
      readHelper f pb1 indent
        { st with
            entries :=
              alistSet
                (pyStrip (if (line.dropWhile indentChar).contains '=' then
                  splitFst '=' (line.dropWhile indentChar) else line.dropWhile indentChar))
                (.str (pyStrip
                  (if (line.dropWhile indentChar).contains '=' &&
                      (if (line.dropWhile indentChar).contains '=' then
                        splitSnd '=' (line.dropWhile indentChar)
                      else []).contains '#' then
                    splitFst '#' (line.dropWhile indentChar)
                  else if (line.dropWhile indentChar).contains '=' then
                    splitSnd '=' (line.dropWhile indentChar)
                  else [])))
                st.entries,
            comments :=
              alistSet
                (pyStrip (if (line.dropWhile indentChar).contains '=' then
                  splitFst '=' (line.dropWhile indentChar) else line.dropWhile indentChar))
                (if (line.dropWhile indentChar).contains '=' &&
                    (if (line.dropWhile indentChar).contains '=' then
                      splitSnd '=' (line.dropWhile indentChar)
                    else []).contains '#' then
                  st.cbuf ++ [splitSnd '#' (line.dropWhile indentChar)]
                else st.cbuf)
                st.comments,
            cbuf := [],
            lastKey := some (if (line.dropWhile indentChar).contains '=' then
              splitFst '=' (line.dropWhile indentChar) else line.dropWhile indentChar) }

/-- The line is, after the reader's normalization, a substantive line at
physical indent `i`: `i` spaces, then a non-whitespace, non-`#` character.
The serialized `key = value` and `key:` lines all have this shape. -/
def substAt (i : Nat) (l : Line) : Prop :=
  ∃ c r, pyWsChar c = false ∧ c ≠ '#' ∧
    normLine l = List.replicate i ' ' ++ c :: r ∧
    (∀ x, (c :: r : Line).getLast? = some x → pyWsChar x = false)

/-- The reader state delivers exactly the lines of `stream` (each through
`next`'s normalization): a first segment `pre` has already been read once and
pushed back (all but its final line blank-or-comment), the remainder is still
unread input. -/
def Feeds (pb : PushBackFile) (stream : List Line) : Prop :=
  ∃ pre post, stream = pre ++ post ∧ pb.stack = (pre.map normLine).reverse ∧
    pb.input = post ∧ (∀ l ∈ pre.dropLast, nsBranchLine l = true)

/-- The comment lines `ConfigFile.write` emits just before a scalar entry. -/
def cmtLines (cs : List (Line × List Line)) (k : Line) : List Line :=
  match alistLookup k cs with
  | some cls => cls.map (fun cl => '#' :: ' ' :: cl)
  | none => []

/-- The blank-or-comment lines that precede the first substantive line of a
serialized entry list (the head entry's comment block, or the blank line
before a section header). -/
def nsPref (m : Nat) (cs : List (Line × List Line)) : List (Line × CVal) → List Line
  | [] => []
  | (k, .str _) :: _ => indentLines m (cmtLines cs k)
  | (_, .node _ _ _ _) :: _ => [List.replicate m ' ']

/-- A serialized entry list from its first substantive line on. -/
def coreOf (m : Nat) (cs : List (Line × List Line)) : List (Line × CVal) → List Line
  | [] => []
  | (k, .str v) :: es2 => rawKv m k v :: indentLines m (writeEntries cs es2)
  | (k, .node es2 cs2 sc2 ag2) :: es3 =>
      rawSec m k :: (indentLines (m + 4) (configWrite (.node es2 cs2 sc2 ag2)) ++
        indentLines m (writeEntries cs es3))

mutual

/-- Structural size of a config value (for the parse induction). -/
def cvSize : CVal → Nat
  | .str _ => 0
  | .node es _ _ _ => 1 + entSize es

/-- Structural size of an entry list. -/
def entSize : List (Line × CVal) → Nat
  | [] => 0
  | (_, v) :: rest => 1 + cvSize v + entSize rest

end

def c2Tree : CVal :=
  .node [(['A'], .str ['1']), (['S'], .node [(['B'], .str ['2'])] [] [] true)] [] [['c']] true

def c2CexTree : CVal := .node [(['a'], .str ['b', '#', 'c'])] [] [] true

/-! ## Claim theorems (all claims except the round-trip C2, proved later) -/

/-- C1: for a declared key whose solid flag is not set, `get` probes the
sources in the fixed order command-line options, user file, in-memory
non-persistent store, environment values, each read-only file config in
registration order, compiled defaults; the first source containing the key
wins, its value is decoded by the bound resolver, and the lookup fails with
the key-not-found condition when no source contains the key. -/
theorem getattr_probe_order {V : Type} (sec : SettingsSection V) (key : Line)
    (hup : pyIsUpper key = true)
    (ex : ExtraOptions) (hex : alistLookup (pyLower key) sec.extraOptions = some ex)
    (hsolid : ex.solid = false)
    (r : PyResolver V) (hr : alistLookup (pyLower key) sec.resolvers = some r) :
    Section.getattr sec key =
      match firstLookup (pyLower key)
          ([sec.options, sec.userconfig, sec.nosave, sec.envconfig]
            ++ sec.fileconfigs ++ [sec.defaults]) with
      | some v => .ok (r.get v)
      | none => .error .attrNotFound := by
  unfold Section.getattr
  rw [hup]
  simp only [Bool.not_true, Bool.false_eq_true, if_false, hex, hsolid, Bool.false_eq_true,
    if_false, firstSource, sourcesOf, hr]

/-- C1 witness: on the concrete node, `get` decodes the user-config value 7
to 8, ahead of the non-persistent store and the default. -/
theorem getattr_probe_order_witness :
    pyIsUpper ('K' :: []) = true ∧
    Section.getattr c1Section ('K' :: []) = .ok 8 :=
  ⟨by decide,
    (getattr_probe_order c1Section ('K' :: []) (by decide) ⟨true, false⟩ rfl rfl
      c1Resolver rfl).trans rfl⟩

/-- C3: a value failing the bound resolver's `validate` makes `set` fail
with the validation error, with every source left unchanged and the callback
not invoked. -/
theorem setattr_validation_gate {V : Type} (sec : SettingsSection V) (key : Line) (v : V)
    (hup : pyIsUpper key = true)
    (r : PyResolver V) (hr : alistLookup (pyLower key) sec.resolvers = some r)
    (hval : r.validate v = false) :
    Section.setattr sec key v = ⟨.error .invalidValue, sec, [], []⟩ := by
  unfold Section.setattr
  rw [hup]
  simp [hr, hval]

/-- C3 witness: the concrete rejected write returns the validation error
and the unchanged state with no callback. -/
theorem setattr_validation_gate_witness :
    pyIsUpper ('K' :: []) = true ∧
    Section.setattr c3Section ('K' :: []) 5 = ⟨.error .invalidValue, c3Section, [], []⟩ :=
  ⟨by decide, setattr_validation_gate c3Section ('K' :: []) 5 (by decide) c3Resolver rfl rfl⟩

/-- Any write leaves `defaults` and `extraOptions` untouched (only the user
config, its comments, or the non-persistent store can change). -/
theorem setattr_preserves_defaults {V : Type} (sec : SettingsSection V) (key : Line) (v : V) :
    (Section.setattr sec key v).state.defaults = sec.defaults ∧
    (Section.setattr sec key v).state.extraOptions = sec.extraOptions := by
  unfold Section.setattr
  constructor <;> (repeat' split) <;> rfl

/-- C4: a declared key with `solid = True` always resolves to its compiled
default value as-is (no resolver decode is applied), whatever the other
sources hold, and still does so after any attempted write. -/
theorem solid_key_returns_default {V : Type} (sec : SettingsSection V) (key : Line)
    (hup : pyIsUpper key = true)
    (ex : ExtraOptions) (hex : alistLookup (pyLower key) sec.extraOptions = some ex)
    (hsolid : ex.solid = true)
    (d : V) (hd : alistLookup (pyLower key) sec.defaults = some d) :
    Section.getattr sec key = .ok d ∧
    ∀ key2 v2, Section.getattr (Section.setattr sec key2 v2).state key = .ok d := by
  constructor
  · unfold Section.getattr
    rw [hup]
    simp [hex, hsolid, hd]
  · intro key2 v2
    obtain ⟨h1, h2⟩ := setattr_preserves_defaults sec key2 v2
    unfold Section.getattr
    rw [hup, h1, h2]
    simp [hex, hsolid, hd]

/-- C4 witness: the concrete solid key returns 1 (not the decoded 51 or 61),
also after a write of 99 to it. -/
theorem solid_key_returns_default_witness :
    pyIsUpper ('K' :: []) = true ∧
    Section.getattr c4Section ('K' :: []) = .ok 1 ∧
    Section.getattr (Section.setattr c4Section ('K' :: []) 99).state ('K' :: []) = .ok 1 := by
  have h := solid_key_returns_default c4Section ('K' :: []) (by decide) ⟨true, true⟩ rfl rfl 1 rfl
  exact ⟨by decide, h.1, h.2 ('K' :: []) 99⟩

/-- C5: evaluating the parser on the line `a = b#c` shows the stored value
is the text of the whole line before the `#` (`a = b`), not the text
between `=` and `#` (`b`); the text after the `#` is attached as the key's
comment.  The split is `right.split('#', 1)` on the whole content instead
of the value portion. -/
theorem inline_comment_takes_whole_prefix :
    readConfig 8 [("a = b#c").data] =
      some (.node [(('a' :: []), .str (("a = b").data))]
        [(('a' :: []), [('c' :: [])])] [] true) ∧
    (("a = b").data : Line) ≠ ("b").data :=
  ⟨rfl, by decide⟩

/-- C6 counterexample: after `push('a')` then `push('b')` on an empty
reader, the next `next()` returns `'a'` -- the FIRST pushed line -- not
`'b'` as the LIFO claim states. -/
theorem push_push_next_returns_first_pushed :
    (pbNext true (pbPush ('b' :: []) (pbPush ('a' :: []) c6Reader))).map Prod.fst =
      some ('a' :: []) ∧ ('a' :: [] : Line) ≠ ('b' :: []) := by
  constructor
  · rfl
  · decide

/-- C6 amended: the push-back is a QUEUE (`push` inserts at index 0 and
`next` pops from the end): starting from a reader with an empty push-back
list, after `push(L1)` then `push(L2)` the next two `next()` calls return
L1 then L2 (each put through `next`'s rstrip-and-untab normalization). -/
theorem pushback_queue_order (pb : PushBackFile) (h : pb.stack = []) (l1 l2 : Line) :
    ∃ pb1 pb2,
      pbNext true (pbPush l2 (pbPush l1 pb)) = some (normLine l1, pb1) ∧
      pbNext true pb1 = some (normLine l2, pb2) := by
  obtain ⟨st, input, n⟩ := pb
  simp only at h
  subst h
  exact ⟨_, _, rfl, rfl⟩

/-- C6 amended witness: concrete queue behaviour on two pushed lines. -/
theorem pushback_queue_order_witness :
    ∃ pb1 pb2,
      pbNext true (pbPush ('y' :: []) (pbPush ('x' :: []) c6Reader)) =
        some (normLine ('x' :: []), pb1) ∧
      pbNext true pb1 = some (normLine ('y' :: []), pb2) :=
  pushback_queue_order c6Reader rfl ('x' :: []) ('y' :: [])

/-- C7: `__eq__` reports the empty tree EQUAL to a tree with a key, though
their key sets differ -- `__cmp__` compares `self.__values` with a second
copy of `self.__values` (not `other.__values`), so `other`'s extra keys are
never examined and the claimed equal-key-sets condition is not enforced. -/
theorem pyEq_true_despite_differing_keys :
    cvalKeys c7Empty ≠ cvalKeys c7OneKey ∧
    pyEq 5 c7Empty c7OneKey = some true := by
  constructor
  · decide
  · rfl

/-- C8: `Section.set` with the lower-case dotted path `section.hello`
always raises `AttributeError`: the path walk passes each component to
`__getattr__` without upper-casing it (unlike `Section.get`, which passes
`k.upper()`), and `__getattr__` rejects any key that is not upper-case.
The state is untouched and no callback runs because the walk fails before
any write. -/
theorem set_lowercase_dotted_raises {V : Type}
    (asSection : V → Option (SettingsSection V)) (sec : SettingsSection V) (v : V) :
    Section.setPath asSection sec (("section.hello").data) v = .error .attrNotUpper := rfl

/-- C9: with the list default `[1]` and the key absent from the options and
the user file, the probe yields the default; the list resolver returns a
`SyncList` proxy backed by `[1]`; `append(2)` passes 2 through the child
`int` resolver, makes the proxy's backing list `[1, 2]`, and immediately
writes the encoded string `["1", "2"]` into the user config under the key,
with no explicit `set` call. -/
theorem list_proxy_append_syncs :
    firstSource c9Section c9Key = some (.list [.int 1]) ∧
    listResolverGet c9Key (.list [.int 1]) = some ⟨[.int 1], c9Key⟩ ∧
    syncListAppend intListResolver ⟨[.int 1], c9Key⟩ (.int 2) c9Section.userconfig =
      some (⟨[.int 1, .int 2], c9Key⟩,
        [(c9Key, .str (("[\"1\", \"2\"]").data))]) :=
  ⟨rfl, rfl, rfl⟩

/-- C10: on an auto-grown node, looking up an absent key inserts the key
bound to a fresh empty auto-grown child and returns that child -- the key
set afterwards contains the key; with auto-grow disabled the same lookup
raises `KeyError` and leaves the node unchanged. -/
theorem getitem_autogrow_inserts (es : List (Line × CVal))
    (cs : List (Line × List Line)) (sc : List Line) (k : Line)
    (h : alistLookup k es = none) :
    configGetitem (.node es cs sc true) k =
        (.ok freshNode, .node (es ++ [(k, freshNode)]) cs sc true) ∧
    k ∈ alistKeys (es ++ [(k, freshNode)]) ∧
    configGetitem (.node es cs sc false) k = (.error (), .node es cs sc false) := by
  refine ⟨?_, ?_, ?_⟩
  · show (match alistLookup k es with
      | some v => (Except.ok v, CVal.node es cs sc true)
      | none =>
        if true = true then (Except.ok freshNode, CVal.node (es ++ [(k, freshNode)]) cs sc true)
        else (Except.error (), CVal.node es cs sc true)) =
      (Except.ok freshNode, CVal.node (es ++ [(k, freshNode)]) cs sc true)
    rw [h]
    rfl
  · unfold alistKeys
    rw [List.map_append]
    exact List.mem_append.mpr (Or.inr (by simp))
  · show (match alistLookup k es with
      | some v => (Except.ok v, CVal.node es cs sc false)
      | none =>
        if false = true then (Except.ok freshNode, CVal.node (es ++ [(k, freshNode)]) cs sc false)
        else (Except.error (), CVal.node es cs sc false)) =
      (Except.error (), CVal.node es cs sc false)
    rw [h]
    rfl

/-- C10 witness: concrete auto-grow on an empty node. -/
theorem getitem_autogrow_inserts_witness :
    configGetitem (.node [] [] [] true) ('a' :: []) =
        (.ok freshNode, .node [(('a' :: []), freshNode)] [] [] true) ∧
    ('a' :: []) ∈ alistKeys [(('a' :: [] : Line), freshNode)] ∧
    configGetitem (.node [] [] [] false) ('a' :: []) = (.error (), .node [] [] [] false) := by
  have h := getitem_autogrow_inserts [] [] [] ('a' :: []) rfl
  simpa using h

theorem readHelper_succ_eq (f : Nat) (pb : PushBackFile) (i : Nat) (st : RHState) :
    readHelper (f + 1) pb i st =
      match pbNext true pb with
      | none => some (st, pb)
      | some (line, pb1) => rhStep f line pb1 i st := by
  cases h : pbNext true pb with
  | none => simp only [readHelper, h]
  | some v => obtain ⟨l, pb1⟩ := v; simp only [readHelper, h]; rfl

/-! ## Round-trip (C2): string lemmas -/

theorem indentChar_ws {c : Char} (h : indentChar c = true) : pyWsChar c = true := by
  simp only [indentChar, Bool.or_eq_true, decide_eq_true_eq] at h
  simp only [pyWsChar, Bool.or_eq_true, decide_eq_true_eq]
  tauto

theorem pyWs_false_parts {c : Char} (h : pyWsChar c = false) :
    c ≠ ' ' ∧ c ≠ '\t' ∧ c ≠ '\n' ∧ c ≠ '\r' := by
  simp only [pyWsChar, Bool.or_eq_false_iff, decide_eq_false_iff_not] at h
  exact ⟨h.1.1.1, h.1.1.2, h.1.2, h.2⟩

theorem indentChar_false_of_ws_false {c : Char} (h : pyWsChar c = false) :
    indentChar c = false := by
  obtain ⟨h1, h2, _, _⟩ := pyWs_false_parts h
  simp [indentChar, h1, h2]

theorem dropWhile_append_anchor {p : Char → Bool} {c : Char} (hc : p c = false) :
    ∀ (a b : Line), (a ++ c :: b).dropWhile p = a.dropWhile p ++ c :: b
  | [], b => by simp [List.dropWhile_cons, hc]
  | x :: a, b => by
    by_cases hx : p x
    · simp only [List.cons_append, List.dropWhile_cons, hx, if_true,
        dropWhile_append_anchor hc a b]
    · simp [List.dropWhile_cons, hx]

theorem rstrip_append_anchor {p : Char → Bool} {c : Char} (hc : p c = false) (a b : Line) :
    rstripBy p (a ++ c :: b) = a ++ c :: rstripBy p b := by
  unfold rstripBy
  rw [show (a ++ c :: b).reverse = b.reverse ++ c :: a.reverse by simp]
  rw [dropWhile_append_anchor hc]
  simp

theorem rstrip_eq_self {p : Char → Bool} {l : Line}
    (h : ∀ x, l.getLast? = some x → p x = false) : rstripBy p l = l := by
  obtain rfl | ⟨b, a, rfl⟩ := l.eq_nil_or_concat
  · rfl
  · have ha : p a = false := h a (by simp)
    rw [List.concat_eq_append, show b ++ [a] = b ++ a :: [] from rfl,
      rstrip_append_anchor ha]
    rfl

theorem rstrip_concat_ws {p : Char → Bool} {c : Char} (hc : p c = true) (l : Line) :
    rstripBy p (l ++ [c]) = rstripBy p l := by
  unfold rstripBy
  rw [show (l ++ [c]).reverse = c :: l.reverse by simp]
  rw [List.dropWhile_cons]
  simp [hc]

theorem dropWhile_repl {p : Char → Bool} (hsp : p ' ' = true) (m : Nat) :
    (List.replicate m ' ').dropWhile p = [] := by
  induction m with
  | zero => rfl
  | succ m ih => simp [List.replicate_succ, List.dropWhile_cons, hsp, ih]

theorem dropWhile_repl_cons {p : Char → Bool} (hsp : p ' ' = true) {c : Char}
    (hc : p c = false) (m : Nat) (l : Line) :
    (List.replicate m ' ' ++ c :: l).dropWhile p = c :: l := by
  rw [dropWhile_append_anchor hc, dropWhile_repl hsp]
  rfl

theorem takeWhile_repl_cons {c : Char} (hc : indentChar c = false) (m : Nat) (l : Line) :
    (List.replicate m ' ' ++ c :: l).takeWhile indentChar = List.replicate m ' ' := by
  induction m with
  | zero => simp [List.takeWhile_cons, hc]
  | succ m ih =>
    rw [List.replicate_succ, List.cons_append, List.takeWhile_cons]
    simp only [show indentChar ' ' = true from rfl, if_true, ih, List.replicate_succ]

theorem untabGo_repl (m : Nat) (acc : Line) {c : Char} (hcs : c ≠ ' ') (hct : c ≠ '\t')
    (l : Line) :
    untabGo acc (List.replicate m ' ' ++ c :: l) = acc ++ List.replicate m ' ' ++ c :: l := by
  induction m generalizing acc with
  | zero => simp [untabGo, hcs, hct]
  | succ m ih =>
    rw [List.replicate_succ, List.cons_append, untabGo]
    simp only [if_pos rfl]
    rw [ih (acc ++ [' '])]
    simp

theorem untab_repl_cons (m : Nat) {c : Char} (hcs : c ≠ ' ') (hct : c ≠ '\t') (l : Line) :
    untab (List.replicate m ' ' ++ c :: l) = List.replicate m ' ' ++ c :: l := by
  unfold untab
  rw [untabGo_repl m [] hcs hct l]
  rfl

theorem niceLine_head {c : Char} {l : Line} (h : niceLine (c :: l) = true) :
    pyWsChar c = false := by
  unfold niceLine at h
  simp only [Bool.and_eq_true] at h
  have h2 := h.1.2
  simp only [List.head?_cons] at h2
  exact Bool.not_eq_true' .. |>.mp h2

theorem niceLine_last {l : Line} {c : Char} (h : niceLine l = true) (hc : l.getLast? = some c) :
    pyWsChar c = false := by
  unfold niceLine at h
  simp only [Bool.and_eq_true] at h
  have h2 := h.2
  rw [hc] at h2
  exact Bool.not_eq_true' .. |>.mp h2

theorem pyRstrip_eq_self {l : Line} (h : ∀ x, l.getLast? = some x → pyWsChar x = false) :
    pyRstrip l = l := rstrip_eq_self h

theorem pyStrip_nice {l : Line} (h : niceLine l = true) : pyStrip l = l := by
  unfold pyStrip stripBy
  cases l with
  | nil => rfl
  | cons c t =>
    rw [List.dropWhile_cons, if_neg (by simp [niceLine_head h])]
    exact rstrip_eq_self (fun x hx => niceLine_last h hx)

theorem norm_blank (m : Nat) : normLine (List.replicate m ' ') = [] := by
  unfold normLine pyRstrip
  rw [show (List.replicate m ' ' : Line) = [] ++ List.replicate m ' ' by simp]
  rw [show ([] ++ List.replicate m ' ' : Line) = List.replicate m ' ' by simp]
  unfold rstripBy
  rw [List.reverse_replicate]
  rw [dropWhile_repl (by rfl) m]
  rfl

theorem wfKey_parts {k : Line} (h : wfKey k = true) :
    k ≠ [] ∧ niceLine k = true ∧ k.headD ' ' ≠ '#' ∧ (∀ x ∈ k, x ≠ '=') := by
  unfold wfKey at h
  simp only [Bool.and_eq_true, Bool.not_eq_true', beq_eq_false_iff_ne, ne_eq] at h
  refine ⟨by have := h.1.1.1; simp_all, h.1.1.2, h.1.2, ?_⟩
  intro x hx
  have hc := h.2
  intro he
  subst he
  simp at hc
  exact hc hx

theorem wfVal_parts {v : Line} (h : wfVal v = true) :
    niceLine v = true ∧ (∀ x ∈ v, x ≠ '#') ∧ v.getLast? ≠ some ':' := by
  unfold wfVal at h
  simp only [Bool.and_eq_true, Bool.not_eq_true', beq_eq_false_iff_ne, ne_eq] at h
  refine ⟨h.1.1, ?_, h.2⟩
  intro x hx
  have hc := h.1.2
  intro he
  subst he
  simp at hc
  exact hc hx

theorem splitFst_splitSnd {c : Char} :
    ∀ {a : Line}, (∀ x ∈ a, x ≠ c) → ∀ b, splitFst c (a ++ c :: b) = a ∧ splitSnd c (a ++ c :: b) = b
  | [], _, b => by simp [splitFst, splitSnd]
  | x :: a, h, b => by
    have hx : x ≠ c := h x (by simp)
    obtain ⟨h1, h2⟩ := splitFst_splitSnd (a := a) (fun y hy => h y (by simp [hy])) b
    simp [splitFst, splitSnd, hx, h1, h2]

theorem contains_of_mem {l : Line} {c : Char} (h : c ∈ l) : l.contains c = true := by
  simpa using h

theorem contains_false_of_not_mem {l : Line} {c : Char} (h : c ∉ l) : l.contains c = false := by
  simpa using h

theorem dropWhile_append_of_all {p : Char → Bool} :
    ∀ {a : Line} (_ : ∀ x ∈ a, p x = true) (b : Line), (a ++ b).dropWhile p = b.dropWhile p
  | [], _, b => rfl
  | x :: a, h, b => by
    rw [List.cons_append, List.dropWhile_cons, if_pos (h x (by simp))]
    exact dropWhile_append_of_all (fun y hy => h y (by simp [hy])) b

theorem subst_ne_nil {l : Line} (h : substLine l = true) : l ≠ [] := by
  intro hl
  subst hl
  simp [substLine, pyStrip, stripBy, rstripBy] at h

theorem nsBranch_blank (j : Nat) : nsBranchLine (List.replicate j ' ') = true := by
  unfold nsBranchLine
  rw [norm_blank]
  rfl

theorem nsBranch_hash (m : Nat) (rest : Line) :
    nsBranchLine (List.replicate m ' ' ++ '#' :: rest) = true := by
  unfold nsBranchLine normLine
  unfold pyRstrip
  rw [show List.replicate m ' ' ++ '#' :: rest =
        (List.replicate m ' ') ++ '#' :: rest from rfl]
  rw [rstrip_append_anchor (by rfl)]
  rw [untab_repl_cons m (by decide) (by decide)]
  rw [dropWhile_repl_cons (by rfl) (by decide) m]
  rfl

theorem nsBranch_not_subst {l : Line} (h : nsBranchLine l = true) :
    substLine (normLine l) = false := by
  unfold nsBranchLine at h
  cases hdw : (normLine l).dropWhile indentChar with
  | nil =>
    have hall : ∀ x ∈ normLine l, indentChar x = true := by
      rw [← List.dropWhile_eq_nil_iff]
      exact hdw
    unfold substLine
    have : (normLine l).dropWhile pyWsChar = [] := by
      rw [List.dropWhile_eq_nil_iff]
      exact fun x hx => indentChar_ws (hall x hx)
    unfold pyStrip stripBy
    rw [this]
    rfl
  | cons c t =>
    rw [hdw] at h
    simp only at h
    have hc : c = '#' := by simpa using h
    subst hc
    have hsplit : normLine l = (normLine l).takeWhile indentChar ++ '#' :: t := by
      rw [show ((normLine l).takeWhile indentChar ++ '#' :: t : Line) =
        (normLine l).takeWhile indentChar ++ (normLine l).dropWhile indentChar by rw [hdw]]
      rw [List.takeWhile_append_dropWhile]
    unfold substLine pyStrip stripBy
    rw [hsplit, dropWhile_append_of_all
      (fun x hx => indentChar_ws (List.mem_takeWhile_imp hx))]
    rw [List.dropWhile_cons, if_neg (by decide)]
    rw [show ('#' :: t : Line) = [] ++ '#' :: t from rfl, rstrip_append_anchor (by rfl)]
    rfl

theorem getLast?_append_ne {l m : List Char} (h : m ≠ []) :
    (l ++ m).getLast? = m.getLast? := by
  rw [List.getLast?_append]
  cases hm : m.getLast? with
  | none => exact absurd (List.getLast?_eq_none_iff.mp hm) h
  | some a => rfl

theorem rawKv_cons (m : Nat) (c : Char) (t v : Line) :
    rawKv m (c :: t) v = List.replicate m ' ' ++ c :: (t ++ ' ' :: '=' :: ' ' :: v) := by
  simp [rawKv]

theorem rawSec_cons (m : Nat) (c : Char) (t : Line) :
    rawSec m (c :: t) = List.replicate m ' ' ++ c :: (t ++ [':']) := by
  simp [rawSec]

theorem norm_rawKv_pos {m : Nat} {k v : Line} (hk : wfKey k = true) (hv : wfVal v = true)
    (hvne : v ≠ []) : normLine (rawKv m k v) = rawKv m k v := by
  obtain ⟨hne, hnice, _, _⟩ := wfKey_parts hk
  obtain ⟨hvnice, _, _⟩ := wfVal_parts hv
  obtain ⟨c, t, rfl⟩ := List.exists_cons_of_ne_nil hne
  have hcw : pyWsChar c = false := niceLine_head hnice
  obtain ⟨hc1, hc2, _, _⟩ := pyWs_false_parts hcw
  have h1 : pyRstrip (rawKv m (c :: t) v) = rawKv m (c :: t) v := by
    apply pyRstrip_eq_self
    intro x hx
    have hgl : (rawKv m (c :: t) v).getLast? = v.getLast? := by
      unfold rawKv
      rw [show List.replicate m ' ' ++ (c :: t) ++ ' ' :: '=' :: ' ' :: v =
        (List.replicate m ' ' ++ (c :: t) ++ [' ', '=', ' ']) ++ v by simp]
      exact getLast?_append_ne hvne
    rw [hgl] at hx
    exact niceLine_last hvnice hx
  unfold normLine
  rw [h1, rawKv_cons, untab_repl_cons m hc1 hc2, ← rawKv_cons]

theorem norm_rawKv_nil {m : Nat} {k : Line} (hk : wfKey k = true) :
    normLine (rawKv m k []) = List.replicate m ' ' ++ k ++ [' ', '='] := by
  obtain ⟨hne, hnice, _, _⟩ := wfKey_parts hk
  obtain ⟨c, t, rfl⟩ := List.exists_cons_of_ne_nil hne
  have hcw : pyWsChar c = false := niceLine_head hnice
  obtain ⟨hc1, hc2, _, _⟩ := pyWs_false_parts hcw
  have h0 : rawKv m (c :: t) [] =
      (List.replicate m ' ' ++ (c :: t) ++ [' ', '=']) ++ [' '] := by
    simp [rawKv]
  have h1 : pyRstrip (rawKv m (c :: t) []) =
      List.replicate m ' ' ++ (c :: t) ++ [' ', '='] := by
    rw [h0]
    unfold pyRstrip
    rw [rstrip_concat_ws (by rfl)]
    apply rstrip_eq_self
    intro x hx
    rw [show List.replicate m ' ' ++ (c :: t) ++ [' ', '='] =
      (List.replicate m ' ' ++ (c :: t) ++ [' ']) ++ ['='] by simp] at hx
    rw [List.getLast?_concat] at hx
    cases hx
    rfl
  unfold normLine
  rw [h1]
  rw [show List.replicate m ' ' ++ (c :: t) ++ ([' ', '='] : Line) =
    List.replicate m ' ' ++ c :: (t ++ [' ', '=']) by simp]
  rw [untab_repl_cons m hc1 hc2]

theorem norm_kvnil_norm {m : Nat} {k : Line} (hk : wfKey k = true) :
    normLine (List.replicate m ' ' ++ k ++ [' ', '=']) =
      List.replicate m ' ' ++ k ++ [' ', '='] := by
  obtain ⟨hne, hnice, _, _⟩ := wfKey_parts hk
  obtain ⟨c, t, rfl⟩ := List.exists_cons_of_ne_nil hne
  have hcw : pyWsChar c = false := niceLine_head hnice
  obtain ⟨hc1, hc2, _, _⟩ := pyWs_false_parts hcw
  have h1 : pyRstrip (List.replicate m ' ' ++ (c :: t) ++ [' ', '=']) =
      List.replicate m ' ' ++ (c :: t) ++ [' ', '='] := by
    apply pyRstrip_eq_self
    intro x hx
    rw [show List.replicate m ' ' ++ (c :: t) ++ [' ', '='] =
      (List.replicate m ' ' ++ (c :: t) ++ [' ']) ++ ['='] by simp] at hx
    rw [List.getLast?_concat] at hx
    cases hx
    rfl
  unfold normLine
  rw [h1]
  rw [show List.replicate m ' ' ++ (c :: t) ++ ([' ', '='] : Line) =
    List.replicate m ' ' ++ c :: (t ++ [' ', '=']) by simp]
  rw [untab_repl_cons m hc1 hc2]

theorem norm_rawSec {m : Nat} {k : Line} (hk : wfKey k = true) :
    normLine (rawSec m k) = rawSec m k := by
  obtain ⟨hne, hnice, _, _⟩ := wfKey_parts hk
  obtain ⟨c, t, rfl⟩ := List.exists_cons_of_ne_nil hne
  have hcw : pyWsChar c = false := niceLine_head hnice
  obtain ⟨hc1, hc2, _, _⟩ := pyWs_false_parts hcw
  have h1 : pyRstrip (rawSec m (c :: t)) = rawSec m (c :: t) := by
    apply pyRstrip_eq_self
    intro x hx
    unfold rawSec at hx
    rw [show List.replicate m ' ' ++ (c :: t) ++ [':'] =
      (List.replicate m ' ' ++ (c :: t)) ++ [':'] by simp] at hx
    rw [List.getLast?_concat] at hx
    cases hx
    rfl
  unfold normLine
  rw [h1, rawSec_cons, untab_repl_cons m hc1 hc2, ← rawSec_cons]

theorem pyStrip_concat_space {k : Line} (hnice : niceLine k = true) (hne : k ≠ []) :
    pyStrip (k ++ [' ']) = k := by
  obtain ⟨c, t, rfl⟩ := List.exists_cons_of_ne_nil hne
  unfold pyStrip stripBy
  rw [List.cons_append, List.dropWhile_cons, if_neg (by simp [niceLine_head hnice])]
  rw [show (c :: (t ++ [' ']) : Line) = (c :: t) ++ [' '] by simp]
  rw [show rstripBy pyWsChar ((c :: t) ++ [' ']) = rstripBy pyWsChar (c :: t) from
    rstrip_concat_ws (by rfl) _]
  exact rstrip_eq_self (fun x hx => niceLine_last hnice hx)

theorem pyStrip_space_cons {v : Line} (hnice : niceLine v = true) :
    pyStrip (' ' :: v) = v := by
  cases v with
  | nil => rfl
  | cons c t =>
    unfold pyStrip stripBy
    rw [List.dropWhile_cons, if_pos (by rfl), List.dropWhile_cons,
      if_neg (by simp [niceLine_head hnice])]
    exact rstrip_eq_self (fun x hx => niceLine_last hnice hx)

theorem substLine_shape {m : Nat} {c : Char} {t : Line} (hcw : pyWsChar c = false)
    (hc : c ≠ '#') (hlast : ∀ x, (c :: t : Line).getLast? = some x → pyWsChar x = false) :
    substLine (List.replicate m ' ' ++ c :: t) = true := by
  unfold substLine pyStrip stripBy
  rw [dropWhile_repl_cons (by rfl) hcw m t]
  rw [rstrip_eq_self hlast]
  simp [hc]

theorem wsLen_shape {m : Nat} {c : Char} {t : Line} (hc : indentChar c = false) :
    wsLen (List.replicate m ' ' ++ c :: t) = m := by
  unfold wsLen
  rw [takeWhile_repl_cons hc]
  simp

theorem alistSet_of_lookup_none {k : Line} {v : α} :
    ∀ {l : List (Line × α)}, alistLookup k l = none → alistSet k v l = l ++ [(k, v)]
  | [], _ => rfl
  | (k2, v2) :: rest, h => by
    unfold alistLookup at h
    by_cases hk2 : k2 = k
    · rw [if_pos hk2] at h
      cases h
    · rw [if_neg hk2] at h
      unfold alistSet
      rw [if_neg hk2, alistSet_of_lookup_none h]
      rfl

theorem alistLookup_append_none {k : Line} {l1 l2 : List (Line × α)}
    (h1 : alistLookup k l1 = none) : alistLookup k (l1 ++ l2) = alistLookup k l2 := by
  induction l1 with
  | nil => rfl
  | cons p rest ih =>
    obtain ⟨k2, v2⟩ := p
    rw [List.cons_append]
    simp only [alistLookup] at h1 ⊢
    by_cases hk2 : k2 = k
    · rw [if_pos hk2] at h1
      cases h1
    · rw [if_neg hk2] at h1 ⊢
      exact ih h1

theorem stripMetaEntries_append (l1 l2 : List (Line × CVal)) :
    stripMetaEntries (l1 ++ l2) = stripMetaEntries l1 ++ stripMetaEntries l2 := by
  induction l1 with
  | nil => rfl
  | cons p rest ih =>
    obtain ⟨k2, v2⟩ := p
    rw [List.cons_append]
    simp only [stripMetaEntries]
    rw [ih]
    rfl

theorem pyStrip_nil : pyStrip [] = [] := rfl

theorem rhStep_kv (f : Nat) (pb1 : PushBackFile) (m : Nat) (k v : Line) (st : RHState)
    (hk : wfKey k = true) (hv : wfVal v = true)
    (hfresh : alistLookup k st.entries = none) :
    rhStep f (normLine (rawKv m k v)) pb1 m st =
      readHelper f pb1 m
        { st with entries := st.entries ++ [(k, .str v)],
                  comments := alistSet k st.cbuf st.comments,
                  cbuf := [], lastKey := some (k ++ [' ']) } := by
  obtain ⟨hne, hnice, hhash, heqm⟩ := wfKey_parts hk
  obtain ⟨hvnice, hvhash, hvcolon⟩ := wfVal_parts hv
  obtain ⟨c, t, rfl⟩ := List.exists_cons_of_ne_nil hne
  have hcw : pyWsChar c = false := niceLine_head hnice
  have hcind : indentChar c = false := indentChar_false_of_ws_false hcw
  have hch : c ≠ '#' := by simpa using hhash
  have hsetE : alistSet (c :: t) (CVal.str v) st.entries =
      st.entries ++ [((c :: t : Line), CVal.str v)] := alistSet_of_lookup_none hfresh
  by_cases hvne : v = []
  · subst hvne
    rw [norm_rawKv_nil hk]
    rw [show List.replicate m ' ' ++ (c :: t) ++ ([' ', '='] : Line) =
        List.replicate m ' ' ++ c :: (t ++ [' ', '=']) by simp]
    have hdw : (List.replicate m ' ' ++ c :: (t ++ [' ', '='])).dropWhile indentChar
        = c :: (t ++ [' ', '=']) := dropWhile_repl_cons (by rfl) hcind m _
    have htw : (List.replicate m ' ' ++ c :: (t ++ [' ', '='])).takeWhile indentChar
        = List.replicate m ' ' := takeWhile_repl_cons hcind m _
    have hgl : ((c :: (t ++ [' ', '='])) : Line).getLast? = some '=' := by
      rw [show (c :: (t ++ [' ', '=']) : Line) = ((c :: t) ++ [' ']) ++ ['='] by simp]
      exact List.getLast?_concat _
    have hcontains : ((c :: (t ++ [' ', '='])) : Line).contains '=' = true :=
      contains_of_mem (by simp)
    have hform : (c :: (t ++ [' ', '=']) : Line) = ((c :: t) ++ [' ']) ++ '=' :: [] := by simp
    obtain ⟨hsf, hss⟩ := splitFst_splitSnd (a := (c :: t) ++ [' '])
      (fun x hx => by
        rcases List.mem_append.mp hx with h | h
        · exact heqm x h
        · simp at h; subst h; decide) ([] : Line)
    rw [← hform] at hsf hss
    have hpsk : pyStrip ((c :: t) ++ [' ']) = c :: t :=
      pyStrip_concat_space hnice (by simp)
    unfold rhStep
    simp only [hdw, htw, List.length_replicate, lt_irrefl, if_false, hgl, hcontains, hsf, hss,
      pyStrip_nil, hpsk, hch, if_neg, List.contains_nil, Bool.and_false, Bool.false_eq_true,
      hsetE]
    rw [if_neg (show ¬ (some '=' = some (':' : Char)) by decide)]
    simp only [if_true, List.contains_nil, Bool.true_and, Bool.false_eq_true, if_false,
      pyStrip_nil]
    rw [hpsk, hsetE]
  · rw [norm_rawKv_pos hk hv hvne]
    rw [rawKv_cons]
    have hdw : (List.replicate m ' ' ++ c :: (t ++ ' ' :: '=' :: ' ' :: v)).dropWhile indentChar
        = c :: (t ++ ' ' :: '=' :: ' ' :: v) := dropWhile_repl_cons (by rfl) hcind m _
    have htw : (List.replicate m ' ' ++ c :: (t ++ ' ' :: '=' :: ' ' :: v)).takeWhile indentChar
        = List.replicate m ' ' := takeWhile_repl_cons hcind m _
    have hgl : ((c :: (t ++ ' ' :: '=' :: ' ' :: v)) : Line).getLast? = v.getLast? := by
      rw [show (c :: (t ++ ' ' :: '=' :: ' ' :: v) : Line) =
        ((c :: t) ++ [' ', '=', ' ']) ++ v by simp]
      exact getLast?_append_ne hvne
    have hcontains : ((c :: (t ++ ' ' :: '=' :: ' ' :: v)) : Line).contains '=' = true :=
      contains_of_mem (by simp)
    have hform : (c :: (t ++ ' ' :: '=' :: ' ' :: v) : Line) =
        ((c :: t) ++ [' ']) ++ '=' :: (' ' :: v) := by simp
    obtain ⟨hsf, hss⟩ := splitFst_splitSnd (a := (c :: t) ++ [' '])
      (fun x hx => by
        rcases List.mem_append.mp hx with h | h
        · exact heqm x h
        · simp at h; subst h; decide) ((' ' :: v) : Line)
    rw [← hform] at hsf hss
    have hpsk : pyStrip ((c :: t) ++ [' ']) = c :: t :=
      pyStrip_concat_space hnice (by simp)
    have hpsv : pyStrip (' ' :: v) = v := pyStrip_space_cons hvnice
    have hnocmt : ((' ' :: v) : Line).contains '#' = false := by
      apply contains_false_of_not_mem
      intro hmem
      rcases List.mem_cons.mp hmem with h | h
      · exact absurd h.symm (by decide)
      · exact hvhash '#' h rfl
    have hcolon : ¬ (((c :: (t ++ ' ' :: '=' :: ' ' :: v)) : Line).getLast? = some ':') := by
      rw [hgl]
      exact hvcolon
    unfold rhStep
    simp only [hdw, htw, List.length_replicate, lt_irrefl, if_false, hcontains, hsf, hss,
      hpsk, hpsv, hch, if_neg, hnocmt, Bool.and_false, Bool.false_eq_true, hsetE]
    rw [hgl, if_neg hvcolon]
    simp only [if_true, Bool.true_and, hnocmt, Bool.false_eq_true, if_false]
    rw [hpsk, hpsv, hsetE]

theorem padTo4_repl (i : Nat) :
    padTo4 (List.replicate i ' ') = List.replicate (i + (4 - i % 4) % 4) ' ' := by
  unfold padTo4
  rw [List.replicate_add]
  simp

theorem untabGo_shape : ∀ (w : Line) (i : Nat) {c : Char} (r : Line),
    (∀ x ∈ w, indentChar x = true) → indentChar c = false →
    ∃ j, untabGo (List.replicate i ' ') (w ++ c :: r) = List.replicate j ' ' ++ c :: r
  | [], i, c, r, _, hc => by
    refine ⟨i, ?_⟩
    have h1 : c ≠ ' ' := by intro h; subst h; simp [indentChar] at hc
    have h2 : c ≠ '\t' := by intro h; subst h; simp [indentChar] at hc
    unfold untabGo
    simp [h1, h2]
  | x :: w, i, c, r, hall, hc => by
    have hx : x = ' ' ∨ x = '\t' := by
      have := hall x (by simp)
      simpa [indentChar] using this
    have hallw : ∀ y ∈ w, indentChar y = true := fun y hy => hall y (by simp [hy])
    rcases hx with h | h
    · subst h
      rw [List.cons_append]
      unfold untabGo
      simp only [if_pos rfl]
      rw [← List.replicate_succ']
      exact untabGo_shape w (i + 1) r hallw hc
    · subst h
      rw [List.cons_append]
      unfold untabGo
      rw [if_neg (by decide), if_pos rfl]
      rw [← List.replicate_succ', padTo4_repl]
      exact untabGo_shape w ((i + 1) + (4 - (i + 1) % 4) % 4) r hallw hc

theorem dropWhile_head_false {p : Char → Bool} :
    ∀ {l : Line} {c : Char} {r : Line}, l.dropWhile p = c :: r → p c = false
  | [], c, r, h => by simp at h
  | x :: xs, c, r, h => by
    rw [List.dropWhile_cons] at h
    by_cases hx : p x = true
    · rw [if_pos hx] at h
      exact dropWhile_head_false h
    · rw [if_neg hx] at h
      cases h
      simpa using hx

theorem pyRstrip_last {l : Line} : ∀ x, (pyRstrip l).getLast? = some x → pyWsChar x = false := by
  intro x hx
  unfold pyRstrip rstripBy at hx
  rw [List.getLast?_reverse] at hx
  cases hdrop : List.dropWhile pyWsChar l.reverse with
  | nil => rw [hdrop] at hx; simp at hx
  | cons c r =>
    rw [hdrop] at hx
    simp only [List.head?_cons, Option.some.injEq] at hx
    subst hx
    exact dropWhile_head_false hdrop

theorem normLine_shape (l : Line) :
    normLine l = [] ∨
      ∃ j c r, indentChar c = false ∧
        normLine l = List.replicate j ' ' ++ c :: r ∧
        (∀ x, (c :: r : Line).getLast? = some x → pyWsChar x = false) := by
  unfold normLine
  cases hy : pyRstrip l with
  | nil => left; rfl
  | cons y0 ys =>
    right
    have hlast : ∀ x, (y0 :: ys : Line).getLast? = some x → pyWsChar x = false := by
      intro x hx
      exact pyRstrip_last (l := l) x (by rw [hy]; exact hx)
    cases hdw : List.dropWhile indentChar (y0 :: ys) with
    | nil =>
      exfalso
      have hall : ∀ x ∈ (y0 :: ys : Line), indentChar x = true :=
        List.dropWhile_eq_nil_iff.mp hdw
      have hl : ∃ x, (y0 :: ys : Line).getLast? = some x := by
        cases hgl : (y0 :: ys : Line).getLast? with
        | none => exact absurd (List.getLast?_eq_none_iff.mp hgl) (by simp)
        | some a => exact ⟨a, rfl⟩
      obtain ⟨x, hx⟩ := hl
      have hmem : x ∈ (y0 :: ys : Line) := by
        obtain ⟨hne, h2⟩ := List.mem_getLast?_eq_getLast (show x ∈ (y0 :: ys : Line).getLast? from hx)
        rw [h2]
        exact List.getLast_mem hne
      exact absurd (indentChar_ws (hall x hmem)) (by rw [hlast x hx]; simp)
    | cons c r =>
      have hc : indentChar c = false := dropWhile_head_false hdw
      have hsplit : (y0 :: ys : Line) = (y0 :: ys : Line).takeWhile indentChar ++ c :: r := by
        conv_lhs => rw [← List.takeWhile_append_dropWhile (p := indentChar) (l := y0 :: ys)]
        rw [hdw]
      obtain ⟨j, hj⟩ := untabGo_shape ((y0 :: ys : Line).takeWhile indentChar) 0 r
        (fun x hx => List.mem_takeWhile_imp hx) hc
      refine ⟨j, c, r, hc, ?_, ?_⟩
      · unfold untab
        conv_lhs => rw [hsplit]
        simpa using hj
      · intro x hx
        apply hlast
        rw [hsplit, getLast?_append_ne (by simp)]
        exact hx

theorem normLine_norm (l : Line) : normLine (normLine l) = normLine l := by
  rcases normLine_shape l with h | ⟨j, c, r, hc, h, hlast⟩
  · rw [h]; rfl
  · rw [h]
    unfold normLine
    rw [pyRstrip_eq_self (by
      intro x hx
      rw [getLast?_append_ne (by simp)] at hx
      exact hlast x hx)]
    obtain ⟨h1, h2⟩ : c ≠ ' ' ∧ c ≠ '\t' := by
      constructor <;> (intro he; subst he; simp [indentChar] at hc)
    exact untab_repl_cons j h1 h2 r

theorem substAt_subst {i : Nat} {l : Line} (h : substAt i l) :
    substLine (normLine l) = true := by
  obtain ⟨c, r, hcw, hch, heq, hlast⟩ := h
  rw [heq]
  exact substLine_shape hcw hch hlast

theorem substAt_wsLen {i : Nat} {l : Line} (h : substAt i l) :
    wsLen (normLine l) = i := by
  obtain ⟨c, r, hcw, _, heq, _⟩ := h
  rw [heq]
  exact wsLen_shape (indentChar_false_of_ws_false hcw)

theorem substAt_ne_nil {i : Nat} {l : Line} (h : substAt i l) :
    normLine l ≠ [] := by
  obtain ⟨c, r, _, _, heq, _⟩ := h
  rw [heq]
  simp

theorem substAt_not_ns {i : Nat} {l : Line} (h : substAt i l) :
    nsBranchLine l = false := by
  by_contra hns
  have h1 : nsBranchLine l = true := by
    cases h2 : nsBranchLine l
    · exact absurd h2 hns
    · rfl
  have := nsBranch_not_subst h1
  rw [substAt_subst h] at this
  exact absurd this (by simp)

theorem substAt_rawKv {m : Nat} {k v : Line} (hk : wfKey k = true) (hv : wfVal v = true) :
    substAt m (rawKv m k v) := by
  obtain ⟨hne, hnice, hhash, _⟩ := wfKey_parts hk
  obtain ⟨hvnice, _, _⟩ := wfVal_parts hv
  obtain ⟨c, t, rfl⟩ := List.exists_cons_of_ne_nil hne
  have hcw : pyWsChar c = false := niceLine_head hnice
  have hch : c ≠ '#' := by simpa using hhash
  by_cases hvne : v = []
  · subst hvne
    refine ⟨c, t ++ [' ', '='], hcw, hch, ?_, ?_⟩
    · rw [norm_rawKv_nil hk]
      simp
    · intro x hx
      rw [show (c :: (t ++ [' ', '=']) : Line) = (c :: t ++ [' ']) ++ ['='] by simp,
        List.getLast?_concat] at hx
      cases hx
      rfl
  · refine ⟨c, t ++ ' ' :: '=' :: ' ' :: v, hcw, hch, ?_, ?_⟩
    · rw [norm_rawKv_pos hk hv hvne, rawKv_cons]
    · intro x hx
      rw [show (c :: (t ++ ' ' :: '=' :: ' ' :: v) : Line) =
        (c :: t ++ [' ', '=', ' ']) ++ v by simp, getLast?_append_ne hvne] at hx
      exact niceLine_last hvnice hx

theorem substAt_rawSec {m : Nat} {k : Line} (hk : wfKey k = true) :
    substAt m (rawSec m k) := by
  obtain ⟨hne, hnice, hhash, _⟩ := wfKey_parts hk
  obtain ⟨c, t, rfl⟩ := List.exists_cons_of_ne_nil hne
  have hcw : pyWsChar c = false := niceLine_head hnice
  have hch : c ≠ '#' := by simpa using hhash
  refine ⟨c, t ++ [':'], hcw, hch, ?_, ?_⟩
  · rw [norm_rawSec hk, rawSec_cons]
  · intro x hx
    rw [show (c :: (t ++ [':']) : Line) = (c :: t) ++ [':'] by simp,
      List.getLast?_concat] at hx
    cases hx
    rfl

theorem rhStep_dedent {i : Nat} {l : Line} (f : Nat) (pb1 : PushBackFile) {m : Nat}
    (st : RHState) (hsub : substAt i l) (hlt : i < m) :
    rhStep f (normLine l) pb1 m st = some (st, pbPush (normLine l) pb1) := by
  obtain ⟨c, r, hcw, hch, heq, _⟩ := hsub
  have hcind : indentChar c = false := indentChar_false_of_ws_false hcw
  unfold rhStep
  rw [heq]
  rw [dropWhile_repl_cons (by rfl) hcind i r, takeWhile_repl_cons hcind i r]
  simp only [List.length_replicate]
  rw [if_neg (by simpa using hch), if_pos hlt]

/-- `list.pop()` on a list with a known last element. -/
theorem popLast_concat : ∀ (xs : List Line) (a : Line), popLast (xs ++ [a]) = some (a, xs)
  | [], a => rfl
  | x :: xs, a => by
    rw [List.cons_append]
    have ih := popLast_concat xs a
    cases hxs : xs ++ [a] with
    | nil => exact absurd hxs (by simp)
    | cons b rest =>
      rw [hxs] at ih
      simp only [popLast, ih]

theorem feeds_of_input (input : List Line) (n : Int) : Feeds ⟨[], input, n⟩ input :=
  ⟨[], input, by simp, by simp, rfl, by simp⟩

theorem feeds_nil_elim {pb : PushBackFile} (h : Feeds pb []) :
    pb.stack = [] ∧ pb.input = [] := by
  obtain ⟨pre, post, hs, hstk, hin, _⟩ := h
  obtain ⟨h1, h2⟩ := List.append_eq_nil.mp hs.symm
  subst h1; subst h2
  exact ⟨by simpa using hstk, hin⟩

theorem feeds_deliver {pb : PushBackFile} {l : Line} {s : List Line}
    (h : Feeds pb (l :: s)) :
    ∃ pb1, pbNext true pb = some (normLine l, pb1) ∧ Feeds pb1 s := by
  obtain ⟨pre, post, hs, hstk, hin, hns⟩ := h
  cases pre with
  | nil =>
    simp only [List.nil_append] at hs
    subst hs
    simp only [List.map_nil, List.reverse_nil] at hstk
    refine ⟨⟨pb.stack, s, pb.lineno + 1⟩, ?_, [], s, by simp, by simp [hstk], rfl, by simp⟩
    unfold pbNext
    rw [hstk]
    simp [hin]
  | cons p0 pre' =>
    simp only [List.cons_append, List.cons.injEq] at hs
    obtain ⟨hl, hs'⟩ := hs
    subst hl
    refine ⟨⟨(pre'.map normLine).reverse, pb.input, pb.lineno + 1⟩, ?_, pre', post, hs', rfl, hin, ?_⟩
    · unfold pbNext
      rw [hstk]
      have hpop : popLast ((List.map normLine (l :: pre')).reverse) =
          some (normLine l, (pre'.map normLine).reverse) := by
        rw [List.map_cons, List.reverse_cons]
        exact popLast_concat _ _
      rw [hpop]
      simp [normLine_norm]
    · intro x hx
      apply hns
      cases pre' with
      | nil => simp at hx
      | cons q qs =>
        rw [List.dropLast_cons_of_ne_nil (by simp)]
        simp [hx]

theorem feeds_deliver_subst {pb : PushBackFile} {l : Line} {s : List Line} {i : Nat}
    (h : Feeds pb (l :: s)) (hsub : substAt i l) :
    ∃ n, pbNext true pb = some (normLine l, ⟨[], s, n⟩) := by
  obtain ⟨pre, post, hs, hstk, hin, hns⟩ := h
  cases pre with
  | nil =>
    simp only [List.nil_append] at hs
    subst hs
    simp only [List.map_nil, List.reverse_nil] at hstk
    refine ⟨pb.lineno + 1, ?_⟩
    unfold pbNext
    rw [hstk]
    simp [hin]
  | cons p0 pre' =>
    simp only [List.cons_append, List.cons.injEq] at hs
    obtain ⟨hl, hs'⟩ := hs
    subst hl
    cases pre' with
    | nil =>
      simp only [List.nil_append] at hs'
      subst hs'
      refine ⟨pb.lineno + 1, ?_⟩
      unfold pbNext
      rw [hstk]
      simp [normLine_norm, hin, popLast]
    | cons p1 pre'' =>
      exfalso
      have : nsBranchLine l = true := by
        apply hns
        rw [List.dropLast_cons_of_ne_nil (by simp)]
        simp
      rw [substAt_not_ns hsub] at this
      exact absurd this (by simp)

theorem pbNext_false_cons (stk : List Line) (l : Line) (rest : List Line) (n : Int) :
    pbNext false ⟨stk, l :: rest, n⟩ = some (normLine l, ⟨stk, rest, n + 1⟩) := by
  unfold pbNext
  simp

theorem peekFuel_finds : ∀ (ns : List Line) (stk : List Line) {s : Line}
    (after : List Line) (n : Int) {i : Nat}, allNS ns → substAt i s →
    ∃ n2, peekFuel ((ns ++ s :: after : List Line).length + 1) ⟨stk, ns ++ s :: after, n⟩ =
      some (normLine s, ⟨normLine s :: ((ns.map normLine).reverse ++ stk), after, n2⟩)
  | [], stk, s, after, n, i, _, hsub => by
    simp only [List.nil_append, List.map_nil, List.reverse_nil]
    unfold peekFuel
    rw [pbNext_false_cons]
    simp only
    rw [if_pos (substAt_subst hsub)]
    unfold pbPush
    exact ⟨if (normLine s).isEmpty then n + 1 else n + 1 - 1, rfl⟩
  | x :: ns, stk, s, after, n, i, hns, hsub => by
    have hxns : nsBranchLine x = true := hns x (by simp)
    have hns' : allNS ns := fun l hl => hns l (by simp [hl])
    simp only [List.cons_append, List.length_cons]
    unfold peekFuel
    rw [pbNext_false_cons]
    simp only
    rw [if_neg (by rw [nsBranch_not_subst hxns]; simp)]
    obtain ⟨n2, hrec⟩ := peekFuel_finds ns (normLine x :: stk) after
      (if (normLine x).isEmpty then n + 1 else n + 1 - 1) hns' hsub
    refine ⟨n2, ?_⟩
    rw [show pbPush (normLine x) ⟨stk, ns ++ s :: after, n + 1⟩ =
      ⟨normLine x :: stk, ns ++ s :: after,
        if (normLine x).isEmpty then n + 1 else n + 1 - 1⟩ from by
      unfold pbPush
      split <;> rfl]
    rw [hrec]
    simp [List.append_assoc]

theorem peekLoop_finds (ns stk : List Line) {s : Line}
    (after : List Line) (n : Int) {i : Nat} (hns : allNS ns) (hsub : substAt i s) :
    ∃ n2, peekLoop ⟨stk, ns ++ s :: after, n⟩ =
      some (normLine s, ⟨normLine s :: ((ns.map normLine).reverse ++ stk), after, n2⟩) := by
  unfold peekLoop
  exact peekFuel_finds ns stk after n hns hsub

theorem consume_ns : ∀ (ns : List Line), allNS ns → ∀ (pb : PushBackFile)
    (m : Nat) (st : RHState) (s2 : List Line), Feeds pb (ns ++ s2) →
    ∃ pb2 st2, Feeds pb2 s2 ∧ st2.entries = st.entries ∧
      ∀ f : Nat, readHelper (ns.length + f) pb m st = readHelper f pb2 m st2
  | [], _, pb, m, st, s2, hf => ⟨pb, st, hf, rfl, fun f => by simp⟩
  | x :: ns, hns, pb, m, st, s2, hf => by
    have hxns : nsBranchLine x = true := hns x (by simp)
    have hns' : allNS ns := fun l hl => hns l (by simp [hl])
    rw [List.cons_append] at hf
    obtain ⟨pb1, hnext, hf1⟩ := feeds_deliver hf
    have hkey : ∀ (f : Nat) (stA : RHState),
        readHelper ((x :: ns : List Line).length + f) pb m stA =
        rhStep (ns.length + f) (normLine x) pb1 m stA := by
      intro f stA
      rw [show (x :: ns : List Line).length + f = (ns.length + f) + 1 from by
        simp [Nat.add_right_comm]]
      rw [readHelper_succ_eq, hnext]
    unfold nsBranchLine at hxns
    cases hdw : (normLine x).dropWhile indentChar with
    | nil =>
      obtain ⟨pb2, st2, ha, hb, hc2⟩ := consume_ns ns hns' pb1 m st s2 hf1
      refine ⟨pb2, st2, ha, hb, fun f => ?_⟩
      rw [hkey f st]
      unfold rhStep
      simp only [hdw]
      exact hc2 f
    | cons c rest =>
      rw [hdw] at hxns
      simp only at hxns
      have hc : c = '#' := by simpa using hxns
      subst hc
      by_cases h5 : (('#' :: rest : Line)).take 5 = ['#', '#', '#', '#', '#']
      · obtain ⟨pb2, st2, ha, hb, hc2⟩ := consume_ns ns hns' pb1 m
          { st with scOpen := !st.scOpen } s2 hf1
        refine ⟨pb2, st2, ha, hb, fun f => ?_⟩
        rw [hkey f st]
        unfold rhStep
        simp only [hdw]
        simp only [if_true]
        rw [if_pos h5]
        exact hc2 f
      · by_cases hsc : st.scOpen = true
        · obtain ⟨pb2, st2, ha, hb, hc2⟩ := consume_ns ns hns' pb1 m
            { st with seccomment := st.seccomment ++ [stripHashSpace (('#' :: rest : Line).drop 1)] }
            s2 hf1
          refine ⟨pb2, st2, ha, hb, fun f => ?_⟩
          rw [hkey f st]
          unfold rhStep
          simp only [hdw]
          simp only [if_true]
          rw [if_neg h5, if_pos hsc]
          exact hc2 f
        · obtain ⟨pb2, st2, ha, hb, hc2⟩ := consume_ns ns hns' pb1 m
            { st with cbuf := st.cbuf ++ [stripHashSpace ('#' :: rest : Line)] }
            s2 hf1
          refine ⟨pb2, st2, ha, hb, fun f => ?_⟩
          rw [hkey f st]
          unfold rhStep
          simp only [hdw]
          simp only [if_true]
          rw [if_neg h5, if_neg hsc]
          exact hc2 f

theorem readHelper_mono : ∀ (f f' : Nat), f ≤ f' → ∀ (pb : PushBackFile) (m : Nat)
    (st : RHState) (r : RHState × PushBackFile),
    readHelper f pb m st = some r → readHelper f' pb m st = some r
  | 0, _, _, _, _, _, r, h => by simp [readHelper] at h
  | _ + 1, 0, hle, _, _, _, _, _ => by omega
  | f + 1, f' + 1, hle, pb, m, st, r, h => by
    have ih : ∀ pb m st r, readHelper f pb m st = some r → readHelper f' pb m st = some r :=
      fun pb m st r => readHelper_mono f f' (by omega) pb m st r
    rw [readHelper_succ_eq] at h ⊢
    cases hnx : pbNext true pb with
    | none =>
      rw [hnx] at h
      exact h
    | some v =>
      obtain ⟨l, pb1⟩ := v
      rw [hnx] at h
      replace h : rhStep f l pb1 m st = some r := h
      show rhStep f' l pb1 m st = some r
      unfold rhStep at h ⊢
      cases hdw : l.dropWhile indentChar with
      | nil =>
        simp only [hdw] at h ⊢
        exact ih _ _ _ _ h
      | cons c t =>
        simp only [hdw] at h ⊢
        by_cases hch : c = '#'
        · rw [if_pos hch] at h ⊢
          by_cases h5 : (c :: t : Line).take 5 = ['#', '#', '#', '#', '#']
          · rw [if_pos h5] at h ⊢
            exact ih _ _ _ _ h
          · rw [if_neg h5] at h ⊢
            by_cases hsc : st.scOpen = true
            · rw [if_pos hsc] at h ⊢
              exact ih _ _ _ _ h
            · rw [if_neg hsc] at h ⊢
              exact ih _ _ _ _ h
        · rw [if_neg hch] at h ⊢
          by_cases hlt : (l.takeWhile indentChar).length < m
          · rw [if_pos hlt] at h ⊢
            exact h
          · rw [if_neg hlt] at h ⊢
            by_cases hgt : m < (l.takeWhile indentChar).length
            · rw [if_pos hgt] at h ⊢
              cases hlk : st.lastKey with
              | none =>
                rw [hlk] at h
                exact absurd h (by simp)
              | some kraw =>
                rw [hlk] at h
                simp only at h ⊢
                by_cases hke : kraw.isEmpty = true
                · rw [if_pos hke] at h
                  exact absurd h (by simp)
                · rw [if_neg hke] at h ⊢
                  cases hal : alistLookup (pyStrip kraw) st.entries with
                  | none =>
                    rw [hal] at h
                    exact absurd h (by simp)
                  | some v =>
                    cases v with
                    | str s =>
                      rw [hal] at h
                      simp only at h ⊢
                      by_cases hcb : st.cbuf.isEmpty = true
                      · rw [if_pos hcb] at h ⊢
                        exact ih _ _ _ _ h
                      · rw [if_neg hcb] at h ⊢
                        cases hcl : alistLookup (pyStrip kraw) st.comments with
                        | none =>
                          rw [hcl] at h
                          exact absurd h (by simp)
                        | some cls =>
                          rw [hcl] at h
                          simp only at h ⊢
                          exact ih _ _ _ _ h
                    | node a b c2 d =>
                      rw [hal] at h
                      exact absurd h (by simp)
            · rw [if_neg hgt] at h ⊢
              by_cases hcol : (c :: t : Line).getLast? = some ':'
              · rw [if_pos hcol] at h ⊢
                by_cases hse : (pyStrip (c :: t : Line).dropLast).isEmpty = true
                · rw [if_pos hse] at h
                  exact absurd h (by simp)
                · rw [if_neg hse] at h ⊢
                  cases hpk : peekLoop pb1 with
                  | none =>
                    rw [hpk] at h
                    exact absurd h (by simp)
                  | some w =>
                    obtain ⟨nl, pb2⟩ := w
                    rw [hpk] at h
                    simp only at h ⊢
                    by_cases hcond : (!nl.isEmpty &&
                        decide (m < (nl.takeWhile indentChar).length)) = true
                    · rw [if_pos hcond] at h ⊢
                      cases hrd : readHelper f pb2 (nl.takeWhile indentChar).length freshRH with
                      | none =>
                        rw [hrd] at h
                        exact absurd h (by simp)
                      | some w2 =>
                        obtain ⟨cst, pb3⟩ := w2
                        rw [hrd] at h
                        simp only at h
                        rw [ih _ _ _ _ hrd]
                        simp only
                        exact ih _ _ _ _ h
                    · rw [if_neg hcond] at h ⊢
                      exact ih _ _ _ _ h
              · rw [if_neg hcol] at h ⊢
                exact ih _ _ _ _ h

theorem rhStep_sec (f : Nat) (pb1 : PushBackFile) (m : Nat) (k : Line) (st : RHState)
    (hk : wfKey k = true) (hfresh : alistLookup k st.entries = none) :
    rhStep f (rawSec m k) pb1 m st =
      match peekLoop pb1 with
      | none => none
      | some (nl, pb2) =>
        if !nl.isEmpty && decide (m < (nl.takeWhile indentChar).length) then
          match readHelper f pb2 (nl.takeWhile indentChar).length freshRH with
          | none => none
          | some (cst, pb3) =>
            readHelper f pb3 m
              { st with
                  entries := st.entries ++
                    [(k, .node cst.entries cst.comments cst.seccomment true)],
                  cbuf := [] }
        else
          readHelper f pb2 m { st with entries := st.entries ++ [(k, freshNode)], cbuf := [] } := by
  obtain ⟨hne, hnice, hhash, _⟩ := wfKey_parts hk
  obtain ⟨c, t, rfl⟩ := List.exists_cons_of_ne_nil hne
  have hcw : pyWsChar c = false := niceLine_head hnice
  have hcind : indentChar c = false := indentChar_false_of_ws_false hcw
  have hch : c ≠ '#' := by simpa using hhash
  rw [rawSec_cons]
  have hdw : (List.replicate m ' ' ++ c :: (t ++ [':'])).dropWhile indentChar
      = c :: (t ++ [':']) := dropWhile_repl_cons (by rfl) hcind m _
  have htw : (List.replicate m ' ' ++ c :: (t ++ [':'])).takeWhile indentChar
      = List.replicate m ' ' := takeWhile_repl_cons hcind m _
  have hgl : ((c :: (t ++ [':'])) : Line).getLast? = some ':' := by
    rw [show (c :: (t ++ [':']) : Line) = (c :: t) ++ [':'] by simp]
    exact List.getLast?_concat _
  have hdl : ((c :: (t ++ [':'])) : Line).dropLast = c :: t := by
    rw [show (c :: (t ++ [':']) : Line) = (c :: t) ++ [':'] by simp]
    exact List.dropLast_concat
  have hps : pyStrip ((c :: t : Line)) = c :: t := pyStrip_nice hnice
  unfold rhStep
  rw [hdw]
  simp only [List.length_replicate, lt_irrefl, if_false]
  rw [if_neg (by simpa using hch)]
  rw [htw]
  simp only [List.length_replicate, lt_irrefl, if_false]
  rw [if_pos hgl, hdl, hps]
  rw [if_neg (by simp)]
  rw [alistSet_of_lookup_none hfresh]
  cases peekLoop pb1 with
  | none => rfl
  | some w =>
    obtain ⟨nl, pb2⟩ := w
    simp only
    by_cases hcond : (!nl.isEmpty && decide (m < (nl.takeWhile indentChar).length)) = true
    · rw [if_pos hcond, if_pos hcond]
      cases readHelper f pb2 (nl.takeWhile indentChar).length freshRH with
      | none => rfl
      | some w2 =>
        obtain ⟨cst, pb3⟩ := w2
        simp only
        rw [alistSet_of_lookup_none hfresh]
    · rw [if_neg hcond, if_neg hcond]

theorem indentLines_nil (m : Nat) : indentLines m [] = [] := rfl

theorem indentLines_cons (m : Nat) (l : Line) (ls : List Line) :
    indentLines m (l :: ls) = (List.replicate m ' ' ++ l) :: indentLines m ls := rfl

theorem indentLines_append (m : Nat) (a b : List Line) :
    indentLines m (a ++ b) = indentLines m a ++ indentLines m b := by
  unfold indentLines
  exact List.map_append _ a b

theorem indentLines_ind4 (m : Nat) (ls : List Line) :
    indentLines m (ls.map (fun l => ' ' :: ' ' :: ' ' :: ' ' :: l)) =
      indentLines (m + 4) ls := by
  induction ls with
  | nil => rfl
  | cons x xs ih =>
    simp only [List.map_cons, indentLines_cons, ih]
    congr 1
    rw [List.replicate_add]
    simp

theorem linesSplit (m : Nat) (cs : List (Line × List Line)) :
    ∀ es : List (Line × CVal),
      indentLines m (writeEntries cs es) = nsPref m cs es ++ coreOf m cs es
  | [] => rfl
  | (k, .str v) :: es2 => by
    show indentLines m (((match alistLookup k cs with
      | some cls => cls.map (fun cl => '#' :: ' ' :: cl)
      | none => []) ++ [k ++ ' ' :: '=' :: ' ' :: v]) ++ writeEntries cs es2) = _
    rw [indentLines_append, indentLines_append]
    show (indentLines m (cmtLines cs k) ++ _) ++ _ = _
    simp only [nsPref, coreOf]
    simp [indentLines, rawKv, List.append_assoc]
  | (k, .node es2 cs2 sc2 ag2) :: es3 => by
    show indentLines m (([] :: (k ++ [':'])
        :: (configWrite (.node es2 cs2 sc2 ag2)).map (fun l => ' ' :: ' ' :: ' ' :: ' ' :: l))
        ++ writeEntries cs es3) = _
    rw [indentLines_append, indentLines_cons, indentLines_cons, indentLines_ind4]
    simp only [nsPref, coreOf, List.append_nil, List.cons_append, List.nil_append]
    simp [rawSec, List.append_assoc]

theorem allNS_append {a b : List Line} (ha : allNS a) (hb : allNS b) : allNS (a ++ b) := by
  intro l hl
  rcases List.mem_append.mp hl with h | h
  · exact ha l h
  · exact hb l h

theorem allNS_indent_cmts (m : Nat) (cls : List Line) :
    allNS (indentLines m (cls.map (fun cl => '#' :: ' ' :: cl))) := by
  intro l hl
  unfold indentLines at hl
  rw [List.map_map] at hl
  obtain ⟨cl, _, rfl⟩ := List.mem_map.mp hl
  exact nsBranch_hash m _

theorem nsPref_allNS (m : Nat) (cs : List (Line × List Line)) :
    ∀ es : List (Line × CVal), allNS (nsPref m cs es)
  | [] => by intro l hl; simp [nsPref] at hl
  | (k, .str v) :: es2 => by
    show allNS (indentLines m (cmtLines cs k))
    unfold cmtLines
    cases alistLookup k cs with
    | none => intro l hl; simp [indentLines] at hl
    | some cls => exact allNS_indent_cmts m cls
  | (k, .node _ _ _ _) :: es3 => by
    intro l hl
    unfold nsPref at hl
    simp only [List.mem_singleton] at hl
    subst hl
    exact nsBranch_blank m

theorem boxOf_shape {l : Line} {sc : List Line} (h : l ∈ boxOf sc) :
    l = [] ∨ ∃ r, l = '#' :: r := by
  unfold boxOf at h
  by_cases he : sc.isEmpty
  · rw [if_pos he] at h
    simp at h
  · rw [if_neg he] at h
    rcases List.mem_append.mp h with h1 | h1
    · rcases List.mem_append.mp h1 with h2 | h2
      · simp only [List.mem_singleton] at h2
        subst h2
        cases hL : boxWidth sc + 4 with
        | zero => left; rfl
        | succ j => right; exact ⟨List.replicate j '#', by rw [List.replicate_succ]⟩
      · obtain ⟨line, _, rfl⟩ := List.mem_map.mp h2
        right
        exact ⟨_, rfl⟩
    · simp only [List.mem_singleton] at h1
      subst h1
      cases hL : boxWidth sc + 4 with
      | zero => left; rfl
      | succ j => right; exact ⟨List.replicate j '#', by rw [List.replicate_succ]⟩

theorem allNS_indent_box (j : Nat) (sc : List Line) :
    allNS (indentLines j (boxOf sc)) := by
  intro l hl
  unfold indentLines at hl
  obtain ⟨bl, hbl, rfl⟩ := List.mem_map.mp hl
  rcases boxOf_shape hbl with h | ⟨r, h⟩
  · subst h
    rw [List.append_nil]
    exact nsBranch_blank j
  · subst h
    exact nsBranch_hash j r

theorem coreOf_head {m : Nat} {cs : List (Line × List Line)} {es : List (Line × CVal)}
    (hwf : wfEntries es = true) (hne : es ≠ []) :
    ∃ d tl, coreOf m cs es = d :: tl ∧ substAt m d := by
  match es, hne with
  | (k, .str v) :: es2, _ =>
    unfold wfEntries at hwf
    simp only [Bool.and_eq_true] at hwf
    obtain ⟨⟨hk, hv⟩, _⟩ := hwf
    exact ⟨rawKv m k v, _, rfl, substAt_rawKv hk (by simpa [wfCVal] using hv)⟩
  | (k, .node es2 cs2 sc2 ag2) :: es3, _ =>
    unfold wfEntries at hwf
    simp only [Bool.and_eq_true] at hwf
    exact ⟨rawSec m k, _, rfl, substAt_rawSec hwf.1.1⟩

theorem wfEntries_cons {k : Line} {v : CVal} {es : List (Line × CVal)}
    (h : wfEntries ((k, v) :: es) = true) :
    wfKey k = true ∧ wfCVal v = true ∧ wfEntries es = true := by
  unfold wfEntries at h
  simp only [Bool.and_eq_true] at h
  exact ⟨h.1.1, h.1.2, h.2⟩

theorem wfCVal_node_parts {es : List (Line × CVal)} {cs : List (Line × List Line)}
    {sc : List Line} {ag : Bool} (h : wfCVal (.node es cs sc ag) = true) :
    wfEntries es = true ∧ (alistKeys es).Nodup := by
  unfold wfCVal at h
  simp only [Bool.and_eq_true, decide_eq_true_eq] at h
  exact ⟨h.1.1.1, h.1.1.2⟩

theorem keysNodup_cons {k : Line} {v : CVal} {es : List (Line × CVal)}
    (h : (alistKeys ((k, v) :: es)).Nodup) :
    k ∉ alistKeys es ∧ (alistKeys es).Nodup := by
  unfold alistKeys at h
  rw [List.map_cons] at h
  exact List.nodup_cons.mp h

theorem fresh_step {k : Line} {v0 : CVal} {es : List (Line × CVal)} {E : List (Line × CVal)}
    (hfresh : ∀ k2 ∈ alistKeys es, alistLookup k2 E = none) (hk : k ∉ alistKeys es) :
    ∀ k2 ∈ alistKeys es, alistLookup k2 (E ++ [(k, v0)]) = none := by
  intro k2 hk2
  rw [alistLookup_append_none (hfresh k2 hk2)]
  unfold alistLookup
  rw [if_neg (by intro he; subst he; exact hk hk2)]
  rfl

theorem okEnd_tail {e : Line × CVal} {es : List (Line × CVal)}
    (h : okEndEntries (e :: es) = true) : okEndEntries es = true := by
  cases es with
  | nil => simp [okEndEntries]
  | cons e2 r =>
    obtain ⟨ke, ve⟩ := e
    simpa only [okEndEntries] using h

theorem okEnd_node_single {k : Line} {es2 : List (Line × CVal)} {cs2 : List (Line × List Line)}
    {sc2 : List Line} {ag2 : Bool}
    (h : okEndEntries [(k, .node es2 cs2 sc2 ag2)] = true) :
    es2 ≠ [] ∧ okEndEntries es2 = true := by
  simp only [okEndEntries, Bool.and_eq_true, Bool.not_eq_true'] at h
  refine ⟨?_, h.2⟩
  intro he
  subst he
  simp at h

theorem stripMetaEntries_cons (k : Line) (v : CVal) (es : List (Line × CVal)) :
    stripMetaEntries ((k, v) :: es) = (k, stripMeta v) :: stripMetaEntries es := rfl

theorem pbNext_true_nilnil (n : Int) : pbNext true (⟨[], [], n⟩ : PushBackFile) = none := rfl

theorem writeEntries_nil (cs : List (Line × List Line)) : writeEntries cs [] = [] := rfl

theorem configWrite_node (es : List (Line × CVal)) (cs : List (Line × List Line))
    (sc : List Line) (ag : Bool) :
    configWrite (.node es cs sc ag) = boxOf sc ++ writeEntries cs es := rfl

theorem pbPush_of_empty_stack (l : Line) (inp : List Line) (n : Int) :
    ∃ n2, pbPush l (⟨[], inp, n⟩ : PushBackFile) = ⟨[l], inp, n2⟩ := by
  unfold pbPush
  exact ⟨_, rfl⟩

theorem isEmpty_false_of_ne {l : Line} (h : l ≠ []) : l.isEmpty = false := by
  cases l with
  | nil => exact absurd rfl h
  | cons a r => rfl

theorem sme_nil_append (es : List (Line × CVal)) :
    stripMetaEntries ([] ++ es) = stripMetaEntries es := by
  rw [List.nil_append]

theorem parseCore : ∀ (N : Nat) (es : List (Line × CVal)), entSize es ≤ N →
    ∀ (cs : List (Line × List Line)) (m : Nat) (st : RHState) (pb : PushBackFile)
      (nsl rest : List Line) (P : PushBackFile → Prop),
      wfEntries es = true → (alistKeys es).Nodup →
      (∀ k2 ∈ alistKeys es, alistLookup k2 st.entries = none) →
      allNS nsl →
      ((∃ nsd i d after, rest = nsd ++ d :: after ∧ allNS nsd ∧ substAt i d ∧ i < m ∧
          ∀ n2 : Int, P ⟨[normLine d], after, n2⟩) ∨
        (allNS rest ∧ okEndEntries es = true ∧ ∀ n2 : Int, P ⟨[], [], n2⟩)) →
      Feeds pb (nsl ++ coreOf m cs es ++ rest) →
      ∃ f st2 pb2, readHelper f pb m st = some (st2, pb2) ∧
        stripMetaEntries st2.entries = stripMetaEntries (st.entries ++ es) ∧ P pb2 := by
  intro N
  induction N using Nat.strong_induction_on with
  | _ N ih =>
  intro es hsize cs m st pb nsl rest P hwf hnodup hfresh hnsl hclose hfeeds
  match es, hsize, hwf, hnodup, hfresh, hclose, hfeeds with
  | [], _, _, _, _, hclose, hfeeds =>
    rw [show (coreOf m cs [] : List Line) = [] from rfl, List.append_nil] at hfeeds
    rcases hclose with ⟨nsd, i, d, after, hrest, hnsd, hd, hlt, hP⟩ | ⟨hns, _, hP⟩
    · subst hrest
      rw [show nsl ++ (nsd ++ d :: after) = (nsl ++ nsd) ++ d :: after from by
        rw [List.append_assoc]] at hfeeds
      obtain ⟨pb', st', hfd, hent, hrun⟩ :=
        consume_ns (nsl ++ nsd) (allNS_append hnsl hnsd) pb m st (d :: after) hfeeds
      obtain ⟨n0, hnext⟩ := feeds_deliver_subst hfd hd
      obtain ⟨n2, hpush⟩ := pbPush_of_empty_stack (normLine d) after n0
      refine ⟨(nsl ++ nsd).length + (0 + 1), st', ⟨[normLine d], after, n2⟩, ?_, ?_, hP n2⟩
      · rw [hrun (0 + 1), readHelper_succ_eq, hnext]
        show rhStep 0 (normLine d) ⟨[], after, n0⟩ m st' =
          some (st', ⟨[normLine d], after, n2⟩)
        rw [rhStep_dedent 0 ⟨[], after, n0⟩ st' hd hlt, hpush]
      · rw [hent, List.append_nil]
    · rw [show nsl ++ rest = (nsl ++ rest) ++ [] from by rw [List.append_nil]] at hfeeds
      obtain ⟨pb', st', hfd, hent, hrun⟩ :=
        consume_ns (nsl ++ rest) (allNS_append hnsl hns) pb m st [] hfeeds
      obtain ⟨hstk, hin⟩ := feeds_nil_elim hfd
      obtain ⟨stk', inp', n'⟩ := pb'
      simp only at hstk hin
      subst hstk
      subst hin
      refine ⟨(nsl ++ rest).length + (0 + 1), st', ⟨[], [], n'⟩, ?_, ?_, hP n'⟩
      · rw [hrun (0 + 1), readHelper_succ_eq, pbNext_true_nilnil]
      · rw [hent, List.append_nil]
  | (k, .str v) :: es2, hsize, hwf, hnodup, hfresh, hclose, hfeeds =>
    obtain ⟨hk, hv0, hwf2⟩ := wfEntries_cons hwf
    have hv : wfVal v = true := by simpa [wfCVal] using hv0
    obtain ⟨hknotin, hnodup2⟩ := keysNodup_cons hnodup
    have hkeys : alistKeys ((k, CVal.str v) :: es2) = k :: alistKeys es2 := rfl
    have hkfresh : alistLookup k st.entries = none :=
      hfresh k (by rw [hkeys]; exact List.mem_cons_self _ _)
    have hfresh2 : ∀ k2 ∈ alistKeys es2, alistLookup k2 st.entries = none :=
      fun k2 hk2 => hfresh k2 (by rw [hkeys]; exact List.mem_cons_of_mem _ hk2)
    rw [show (coreOf m cs ((k, CVal.str v) :: es2) : List Line) =
      rawKv m k v :: indentLines m (writeEntries cs es2) from rfl] at hfeeds
    rw [show (nsl ++ (rawKv m k v :: indentLines m (writeEntries cs es2))) ++ rest =
      nsl ++ (rawKv m k v :: (indentLines m (writeEntries cs es2) ++ rest)) from by
        simp] at hfeeds
    obtain ⟨pb', st', hfd, hent, hrun⟩ := consume_ns nsl hnsl pb m st _ hfeeds
    obtain ⟨pb1, hnext, hf1⟩ := feeds_deliver hfd
    rw [linesSplit m cs es2] at hf1
    rw [show (nsPref m cs es2 ++ coreOf m cs es2) ++ rest =
      nsPref m cs es2 ++ coreOf m cs es2 ++ rest from by rw [List.append_assoc]] at hf1
    have hsz : entSize es2 < N := by
      have h1 : entSize ((k, CVal.str v) :: es2) = 1 + cvSize (CVal.str v) + entSize es2 := by
        simp [entSize]
      omega
    have hclose2 : (∃ nsd i d after, rest = nsd ++ d :: after ∧ allNS nsd ∧ substAt i d ∧
        i < m ∧ ∀ n2 : Int, P ⟨[normLine d], after, n2⟩) ∨
        (allNS rest ∧ okEndEntries es2 = true ∧ ∀ n2 : Int, P ⟨[], [], n2⟩) := by
      rcases hclose with h | ⟨hns, hok, hP⟩
      · exact Or.inl h
      · exact Or.inr ⟨hns, okEnd_tail hok, hP⟩
    obtain ⟨f2, st2, pb2, hread2, hsme2, hP2⟩ :=
      ih (entSize es2) hsz es2 le_rfl cs m
        { st' with entries := st'.entries ++ [(k, CVal.str v)],
                   comments := alistSet k st'.cbuf st'.comments,
                   cbuf := [], lastKey := some (k ++ [' ']) }
        pb1 (nsPref m cs es2) rest P hwf2 hnodup2
        (by
          show ∀ k2 ∈ alistKeys es2, alistLookup k2 (st'.entries ++ [(k, CVal.str v)]) = none
          rw [hent]
          exact fresh_step hfresh2 hknotin)
        (nsPref_allNS m cs es2) hclose2 hf1
    refine ⟨nsl.length + (f2 + 1), st2, pb2, ?_, ?_, hP2⟩
    · rw [hrun (f2 + 1), readHelper_succ_eq, hnext]
      show rhStep f2 (normLine (rawKv m k v)) pb1 m st' = some (st2, pb2)
      rw [rhStep_kv f2 pb1 m k v st' hk hv (by rw [hent]; exact hkfresh)]
      exact hread2
    · rw [hsme2]
      show stripMetaEntries ((st'.entries ++ [(k, CVal.str v)]) ++ es2) = _
      rw [hent, List.append_assoc, List.singleton_append]
  | (k, .node es2 cs2 sc2 ag2) :: es3, hsize, hwf, hnodup, hfresh, hclose, hfeeds =>
    obtain ⟨hk, hv0, hwf3⟩ := wfEntries_cons hwf
    obtain ⟨hwf2, hnodup2s⟩ := wfCVal_node_parts hv0
    obtain ⟨hknotin, hnodup3⟩ := keysNodup_cons hnodup
    have hkeys : alistKeys ((k, CVal.node es2 cs2 sc2 ag2) :: es3) = k :: alistKeys es3 := rfl
    have hkfresh : alistLookup k st.entries = none :=
      hfresh k (by rw [hkeys]; exact List.mem_cons_self _ _)
    have hfresh3 : ∀ k2 ∈ alistKeys es3, alistLookup k2 st.entries = none :=
      fun k2 hk2 => hfresh k2 (by rw [hkeys]; exact List.mem_cons_of_mem _ hk2)
    have hszsub : entSize es2 < N ∧ entSize es3 < N := by
      have h1 : entSize ((k, CVal.node es2 cs2 sc2 ag2) :: es3) =
          1 + (1 + entSize es2) + entSize es3 := by simp [entSize, cvSize]
      omega
    rw [show (coreOf m cs ((k, CVal.node es2 cs2 sc2 ag2) :: es3) : List Line) =
      rawSec m k :: (indentLines (m + 4) (configWrite (CVal.node es2 cs2 sc2 ag2)) ++
        indentLines m (writeEntries cs es3)) from rfl] at hfeeds
    rw [show (nsl ++ (rawSec m k :: (indentLines (m + 4)
          (configWrite (CVal.node es2 cs2 sc2 ag2)) ++
          indentLines m (writeEntries cs es3)))) ++ rest =
        nsl ++ (rawSec m k :: ((indentLines (m + 4)
          (configWrite (CVal.node es2 cs2 sc2 ag2)) ++
          indentLines m (writeEntries cs es3)) ++ rest)) from by simp] at hfeeds
    obtain ⟨pb', st', hfd, hent, hrun⟩ := consume_ns nsl hnsl pb m st _ hfeeds
    obtain ⟨n0, hnext⟩ := feeds_deliver_subst hfd (substAt_rawSec hk)
    rw [norm_rawSec hk] at hnext
    by_cases hes2 : es2 = []
    · subst hes2
      have hX0 : indentLines (m + 4) (configWrite (CVal.node [] cs2 sc2 ag2)) =
          indentLines (m + 4) (boxOf sc2) := by
        rw [configWrite_node, writeEntries_nil, List.append_nil]
      by_cases hes3 : es3 = []
      · subst hes3
        rcases hclose with ⟨nsd, i, d, after, hrest, hnsd, hd, hlti, hP⟩ | ⟨hns, hok, hP⟩
        · subst hrest
          have heqS : (indentLines (m + 4) (configWrite (CVal.node [] cs2 sc2 ag2)) ++
              indentLines m (writeEntries cs ([] : List (Line × CVal)))) ++
              (nsd ++ d :: after) =
              (indentLines (m + 4) (boxOf sc2) ++ nsd) ++ d :: after := by
            rw [hX0, writeEntries_nil, indentLines_nil, List.append_nil, List.append_assoc]
          have hnsBN : allNS (indentLines (m + 4) (boxOf sc2) ++ nsd) :=
            allNS_append (allNS_indent_box _ _) hnsd
          obtain ⟨n2p, hpk⟩ := peekLoop_finds (indentLines (m + 4) (boxOf sc2) ++ nsd)
            [] after n0 hnsBN hd
          have htkwd : ((normLine d).takeWhile indentChar).length = i := substAt_wsLen hd
          have hcndF : (!(normLine d).isEmpty &&
              decide (m < ((normLine d).takeWhile indentChar).length)) = false := by
            rw [htkwd, decide_eq_false (by omega : ¬ m < i), Bool.and_false]
          have hfeedsT : Feeds ⟨normLine d ::
                ((((indentLines (m + 4) (boxOf sc2) ++ nsd)).map normLine).reverse ++ []),
                after, n2p⟩
              ((indentLines (m + 4) (boxOf sc2) ++ nsd) ++
                coreOf m cs ([] : List (Line × CVal)) ++ (d :: after)) := by
            refine ⟨(indentLines (m + 4) (boxOf sc2) ++ nsd) ++ [d], after, ?_, ?_, rfl, ?_⟩
            · simp [coreOf]
            · simp
            · rw [List.dropLast_concat]; exact hnsBN
          obtain ⟨f3, st2, pb2fin, hread3, hsme3, hPfin⟩ :=
            ih (entSize ([] : List (Line × CVal))) hszsub.2 [] le_rfl cs m
              { st' with entries := st'.entries ++ [(k, freshNode)], cbuf := [] }
              ⟨normLine d ::
                ((((indentLines (m + 4) (boxOf sc2) ++ nsd)).map normLine).reverse ++ []),
                after, n2p⟩
              (indentLines (m + 4) (boxOf sc2) ++ nsd) (d :: after) P rfl (by simp [alistKeys])
              (by intro k2 hk2; simp [alistKeys] at hk2) hnsBN
              (Or.inl ⟨[], i, d, after, by rw [List.nil_append], by intro l hl; simp at hl,
                hd, hlti, hP⟩)
              hfeedsT
          refine ⟨nsl.length + (f3 + 1), st2, pb2fin, ?_, ?_, hPfin⟩
          · rw [hrun (f3 + 1), readHelper_succ_eq, hnext]
            show rhStep f3 (rawSec m k) ⟨[],
              (indentLines (m + 4) (configWrite (CVal.node [] cs2 sc2 ag2)) ++
                indentLines m (writeEntries cs ([] : List (Line × CVal)))) ++
                (nsd ++ d :: after), n0⟩ m st' = some (st2, pb2fin)
            rw [rhStep_sec f3 _ m k st' hk (by rw [hent]; exact hkfresh), heqS, hpk]
            simp only
            rw [if_neg (by rw [hcndF]; simp)]
            exact hread3
          · rw [hsme3]
            show stripMetaEntries ((st'.entries ++ [(k, freshNode)]) ++ []) = _
            rw [hent, List.append_assoc, List.singleton_append]
            rw [stripMetaEntries_append, stripMetaEntries_append,
              stripMetaEntries_cons, stripMetaEntries_cons]
            rfl
        · exact absurd rfl (okEnd_node_single hok).1
      · obtain ⟨d3, tl3, hcore3, hsub3⟩ := @coreOf_head m cs es3 hwf3 hes3
        have heqS : (indentLines (m + 4) (configWrite (CVal.node [] cs2 sc2 ag2)) ++
            indentLines m (writeEntries cs es3)) ++ rest =
            (indentLines (m + 4) (boxOf sc2) ++ nsPref m cs es3) ++ d3 :: (tl3 ++ rest) := by
          rw [hX0, linesSplit m cs es3, hcore3]
          simp [List.append_assoc]
        have hnsBN : allNS (indentLines (m + 4) (boxOf sc2) ++ nsPref m cs es3) :=
          allNS_append (allNS_indent_box _ _) (nsPref_allNS m cs es3)
        obtain ⟨n2p, hpk⟩ := peekLoop_finds (indentLines (m + 4) (boxOf sc2) ++ nsPref m cs es3)
          [] (tl3 ++ rest) n0 hnsBN hsub3
        have htkwd : ((normLine d3).takeWhile indentChar).length = m := substAt_wsLen hsub3
        have hcndF : (!(normLine d3).isEmpty &&
            decide (m < ((normLine d3).takeWhile indentChar).length)) = false := by
          rw [htkwd, decide_eq_false (by omega : ¬ m < m), Bool.and_false]
        have hfeedsT : Feeds ⟨normLine d3 ::
              ((((indentLines (m + 4) (boxOf sc2) ++ nsPref m cs es3)).map normLine).reverse
                ++ []), tl3 ++ rest, n2p⟩
            ((indentLines (m + 4) (boxOf sc2) ++ nsPref m cs es3) ++
              coreOf m cs es3 ++ rest) := by
          refine ⟨(indentLines (m + 4) (boxOf sc2) ++ nsPref m cs es3) ++ [d3],
            tl3 ++ rest, ?_, ?_, rfl, ?_⟩
          · rw [hcore3]; simp [List.append_assoc]
          · simp
          · rw [List.dropLast_concat]; exact hnsBN
        have hcloseT : (∃ nsd i d after, rest = nsd ++ d :: after ∧ allNS nsd ∧ substAt i d ∧
            i < m ∧ ∀ n2 : Int, P ⟨[normLine d], after, n2⟩) ∨
            (allNS rest ∧ okEndEntries es3 = true ∧ ∀ n2 : Int, P ⟨[], [], n2⟩) := by
          rcases hclose with h | ⟨hns, hok, hP⟩
          · exact Or.inl h
          · exact Or.inr ⟨hns, okEnd_tail hok, hP⟩
        obtain ⟨f3, st2, pb2fin, hread3, hsme3, hPfin⟩ :=
          ih (entSize es3) hszsub.2 es3 le_rfl cs m
            { st' with entries := st'.entries ++ [(k, freshNode)], cbuf := [] }
            ⟨normLine d3 ::
              ((((indentLines (m + 4) (boxOf sc2) ++ nsPref m cs es3)).map normLine).reverse
                ++ []), tl3 ++ rest, n2p⟩
            (indentLines (m + 4) (boxOf sc2) ++ nsPref m cs es3) rest P hwf3 hnodup3
            (by
              show ∀ k2 ∈ alistKeys es3,
                alistLookup k2 (st'.entries ++ [(k, freshNode)]) = none
              rw [hent]
              exact fresh_step hfresh3 hknotin)
            hnsBN hcloseT hfeedsT
        refine ⟨nsl.length + (f3 + 1), st2, pb2fin, ?_, ?_, hPfin⟩
        · rw [hrun (f3 + 1), readHelper_succ_eq, hnext]
          show rhStep f3 (rawSec m k) ⟨[],
            (indentLines (m + 4) (configWrite (CVal.node [] cs2 sc2 ag2)) ++
              indentLines m (writeEntries cs es3)) ++ rest, n0⟩ m st' = some (st2, pb2fin)
          rw [rhStep_sec f3 _ m k st' hk (by rw [hent]; exact hkfresh), heqS, hpk]
          simp only
          rw [if_neg (by rw [hcndF]; simp)]
          exact hread3
        · rw [hsme3]
          show stripMetaEntries ((st'.entries ++ [(k, freshNode)]) ++ es3) = _
          rw [hent, List.append_assoc, List.singleton_append]
          rw [stripMetaEntries_append, stripMetaEntries_append,
            stripMetaEntries_cons, stripMetaEntries_cons]
          rfl
    · obtain ⟨s2, tl2, hcore2, hsub2⟩ := @coreOf_head (m + 4) cs2 es2 hwf2 hes2
      have heqS : (indentLines (m + 4) (configWrite (CVal.node es2 cs2 sc2 ag2)) ++
          indentLines m (writeEntries cs es3)) ++ rest =
          (indentLines (m + 4) (boxOf sc2) ++ nsPref (m + 4) cs2 es2) ++
            s2 :: (tl2 ++ (indentLines m (writeEntries cs es3) ++ rest)) := by
        rw [configWrite_node, indentLines_append, linesSplit (m + 4) cs2 es2, hcore2]
        simp [List.append_assoc]
      have hnsBN : allNS (indentLines (m + 4) (boxOf sc2) ++ nsPref (m + 4) cs2 es2) :=
        allNS_append (allNS_indent_box _ _) (nsPref_allNS (m + 4) cs2 es2)
      obtain ⟨n2p, hpk⟩ := peekLoop_finds
        (indentLines (m + 4) (boxOf sc2) ++ nsPref (m + 4) cs2 es2) []
        (tl2 ++ (indentLines m (writeEntries cs es3) ++ rest)) n0 hnsBN hsub2
      have htkw : ((normLine s2).takeWhile indentChar).length = m + 4 := substAt_wsLen hsub2
      have hcnd : (!(normLine s2).isEmpty &&
          decide (m < ((normLine s2).takeWhile indentChar).length)) = true := by
        rw [isEmpty_false_of_ne (substAt_ne_nil hsub2), htkw]
        simp only [Bool.not_false, Bool.true_and, decide_eq_true_eq]
        omega
      have hfeeds2 : Feeds ⟨normLine s2 ::
            ((((indentLines (m + 4) (boxOf sc2) ++ nsPref (m + 4) cs2 es2)).map
              normLine).reverse ++ []),
            tl2 ++ (indentLines m (writeEntries cs es3) ++ rest), n2p⟩
          ((indentLines (m + 4) (boxOf sc2) ++ nsPref (m + 4) cs2 es2) ++
            coreOf (m + 4) cs2 es2 ++ (indentLines m (writeEntries cs es3) ++ rest)) := by
        refine ⟨(indentLines (m + 4) (boxOf sc2) ++ nsPref (m + 4) cs2 es2) ++ [s2],
          tl2 ++ (indentLines m (writeEntries cs es3) ++ rest), ?_, ?_, rfl, ?_⟩
        · rw [hcore2]; simp [List.append_assoc]
        · simp
        · rw [List.dropLast_concat]; exact hnsBN
      have hcloseSub : (∃ nsd i d after,
          indentLines m (writeEntries cs es3) ++ rest = nsd ++ d :: after ∧ allNS nsd ∧
            substAt i d ∧ i < m + 4 ∧ ∀ n2 : Int,
              (fun pbx => ∀ v0 : CVal, ∃ f3 st2 pb2fin,
                readHelper f3 pbx m
                  { st' with entries := st'.entries ++ [(k, v0)], cbuf := [] } =
                    some (st2, pb2fin) ∧
                stripMetaEntries st2.entries =
                  stripMetaEntries ((st'.entries ++ [(k, v0)]) ++ es3) ∧ P pb2fin)
                ⟨[normLine d], after, n2⟩) ∨
          (allNS (indentLines m (writeEntries cs es3) ++ rest) ∧ okEndEntries es2 = true ∧
            ∀ n2 : Int,
              (fun pbx => ∀ v0 : CVal, ∃ f3 st2 pb2fin,
                readHelper f3 pbx m
                  { st' with entries := st'.entries ++ [(k, v0)], cbuf := [] } =
                    some (st2, pb2fin) ∧
                stripMetaEntries st2.entries =
                  stripMetaEntries ((st'.entries ++ [(k, v0)]) ++ es3) ∧ P pb2fin)
                ⟨[], [], n2⟩) := by
        by_cases hes3 : es3 = []
        · subst hes3
          rcases hclose with ⟨nsd, i, d, after, hrest, hnsd, hd, hlti, hP⟩ | ⟨hns, hok, hP⟩
          · left
            refine ⟨nsd, i, d, after, by
                rw [writeEntries_nil, indentLines_nil, List.nil_append]; exact hrest,
              hnsd, hd, by omega, ?_⟩
            intro n2 v0
            refine ih (entSize ([] : List (Line × CVal))) hszsub.2 [] le_rfl cs m
              { st' with entries := st'.entries ++ [(k, v0)], cbuf := [] }
              ⟨[normLine d], after, n2⟩ [] (d :: after) P rfl (by simp [alistKeys])
              (by intro k2 hk2; simp [alistKeys] at hk2) (by intro l hl; simp at hl)
              (Or.inl ⟨[], i, d, after, by rw [List.nil_append], by intro l hl; simp at hl,
                hd, hlti, hP⟩)
              ?_
            exact ⟨[d], after, by simp [coreOf], by simp, rfl, by intro l hl; simp at hl⟩
          · right
            obtain ⟨hne2, hok2⟩ := okEnd_node_single hok
            refine ⟨by
                rw [writeEntries_nil, indentLines_nil, List.nil_append]; exact hns,
              hok2, ?_⟩
            intro n2 v0
            refine ih (entSize ([] : List (Line × CVal))) hszsub.2 [] le_rfl cs m
              { st' with entries := st'.entries ++ [(k, v0)], cbuf := [] }
              ⟨[], [], n2⟩ [] [] P rfl (by simp [alistKeys])
              (by intro k2 hk2; simp [alistKeys] at hk2) (by intro l hl; simp at hl)
              (Or.inr ⟨by intro l hl; simp at hl, by simp [okEndEntries], hP⟩)
              ⟨[], [], by simp [coreOf], by simp, rfl, by intro l hl; simp at hl⟩
        · obtain ⟨d3, tl3, hcore3, hsub3⟩ := @coreOf_head m cs es3 hwf3 hes3
          left
          refine ⟨nsPref m cs es3, m, d3, tl3 ++ rest, by
              rw [linesSplit m cs es3, hcore3]; simp [List.append_assoc],
            nsPref_allNS m cs es3, hsub3, by omega, ?_⟩
          intro n2 v0
          have hcloseT : (∃ nsd i d after, rest = nsd ++ d :: after ∧ allNS nsd ∧
              substAt i d ∧ i < m ∧ ∀ n2 : Int, P ⟨[normLine d], after, n2⟩) ∨
              (allNS rest ∧ okEndEntries es3 = true ∧ ∀ n2 : Int, P ⟨[], [], n2⟩) := by
            rcases hclose with h | ⟨hns, hok, hP⟩
            · exact Or.inl h
            · exact Or.inr ⟨hns, okEnd_tail hok, hP⟩
          refine ih (entSize es3) hszsub.2 es3 le_rfl cs m
            { st' with entries := st'.entries ++ [(k, v0)], cbuf := [] }
            ⟨[normLine d3], tl3 ++ rest, n2⟩ [] rest P hwf3 hnodup3
            (by
              show ∀ k2 ∈ alistKeys es3,
                alistLookup k2 (st'.entries ++ [(k, v0)]) = none
              rw [hent]
              exact fresh_step hfresh3 hknotin)
            (by intro l hl; simp at hl) hcloseT ?_
          refine ⟨[d3], tl3 ++ rest, ?_, by simp, rfl, by intro l hl; simp at hl⟩
          rw [hcore3]
          simp [List.append_assoc]
      obtain ⟨f2, st3, pb3, hread2, hsme2, hPs⟩ :=
        ih (entSize es2) hszsub.1 es2 le_rfl cs2 (m + 4) freshRH
          ⟨normLine s2 ::
            ((((indentLines (m + 4) (boxOf sc2) ++ nsPref (m + 4) cs2 es2)).map
              normLine).reverse ++ []),
            tl2 ++ (indentLines m (writeEntries cs es3) ++ rest), n2p⟩
          (indentLines (m + 4) (boxOf sc2) ++ nsPref (m + 4) cs2 es2)
          (indentLines m (writeEntries cs es3) ++ rest)
          (fun pbx => ∀ v0 : CVal, ∃ f3 st2 pb2fin,
            readHelper f3 pbx m
              { st' with entries := st'.entries ++ [(k, v0)], cbuf := [] } =
                some (st2, pb2fin) ∧
            stripMetaEntries st2.entries =
              stripMetaEntries ((st'.entries ++ [(k, v0)]) ++ es3) ∧ P pb2fin)
          hwf2 hnodup2s
          (by intro k2 hk2; rfl) hnsBN hcloseSub hfeeds2
      obtain ⟨f3, st2, pb2fin, hread3, hsme3, hPfin⟩ :=
        hPs (CVal.node st3.entries st3.comments st3.seccomment true)
      refine ⟨nsl.length + (max f2 f3 + 1), st2, pb2fin, ?_, ?_, hPfin⟩
      · rw [hrun (max f2 f3 + 1), readHelper_succ_eq, hnext]
        show rhStep (max f2 f3) (rawSec m k) ⟨[],
          (indentLines (m + 4) (configWrite (CVal.node es2 cs2 sc2 ag2)) ++
            indentLines m (writeEntries cs es3)) ++ rest, n0⟩ m st' = some (st2, pb2fin)
        rw [rhStep_sec (max f2 f3) _ m k st' hk (by rw [hent]; exact hkfresh), heqS, hpk]
        simp only
        rw [if_pos hcnd, htkw]
        rw [readHelper_mono f2 (max f2 f3) (Nat.le_max_left _ _) _ _ _ _ hread2]
        simp only
        rw [readHelper_mono f3 (max f2 f3) (Nat.le_max_right _ _) _ _ _ _ hread3]
      · rw [hsme3]
        rw [hent, List.append_assoc, List.singleton_append]
        rw [stripMetaEntries_append, stripMetaEntries_append,
          stripMetaEntries_cons, stripMetaEntries_cons]
        have hnodeq : stripMeta (CVal.node st3.entries st3.comments st3.seccomment true) =
            stripMeta (CVal.node es2 cs2 sc2 ag2) := by
          simp only [stripMeta]
          rw [hsme2, show (freshRH.entries : List (Line × CVal)) = [] from rfl,
            sme_nil_append]
        rw [hnodeq]

theorem indentLines_zero (ls : List Line) : indentLines 0 ls = ls := by
  unfold indentLines
  simp

/-- C2 (amended): the round trip holds for well-formed trees.  For a config
tree whose keys are non-empty, free of surrounding whitespace, `=` and a
leading `#`, unique per node; whose scalar values are free of surrounding
whitespace and `#` and do not end in `:`; whose comments contain no line
breaks; and whose rightmost spine ends in non-empty sections (else the
parser's look-ahead runs past the end of input and `read` dies of the
escaping `StopIteration`), parsing the lines produced by `write` succeeds
and returns a tree with exactly the original keys and values. -/
theorem write_read_roundtrip (es : List (Line × CVal)) (cs : List (Line × List Line))
    (sc : List Line) (ag : Bool)
    (hwf : wfCVal (.node es cs sc ag) = true)
    (hok : okEndCVal (.node es cs sc ag) = true) :
    ∃ f t2, readConfig f (configWrite (.node es cs sc ag)) = some t2 ∧
      stripMeta t2 = stripMeta (.node es cs sc ag) := by
  obtain ⟨hwfE, hnodup⟩ := wfCVal_node_parts hwf
  have hokE : okEndEntries es = true := by simpa [okEndCVal] using hok
  have hlines : configWrite (CVal.node es cs sc ag) =
      (boxOf sc ++ nsPref 0 cs es) ++ coreOf 0 cs es ++ [] := by
    rw [configWrite_node]
    conv_lhs => rw [← indentLines_zero (writeEntries cs es)]
    rw [linesSplit 0 cs es]
    simp [List.append_assoc]
  have hnsl : allNS (boxOf sc ++ nsPref 0 cs es) := by
    apply allNS_append ?_ (nsPref_allNS 0 cs es)
    have hb := allNS_indent_box 0 sc
    rwa [indentLines_zero] at hb
  obtain ⟨f, st2, pb2, hread, hsme, _⟩ :=
    parseCore (entSize es) es le_rfl cs 0 freshRH
      ⟨[], (boxOf sc ++ nsPref 0 cs es) ++ coreOf 0 cs es ++ [], 0⟩
      (boxOf sc ++ nsPref 0 cs es) [] (fun _ => True) hwfE hnodup
      (fun k2 _ => rfl) hnsl
      (Or.inr ⟨by intro l hl; simp at hl, hokE, fun _ => trivial⟩)
      (feeds_of_input _ 0)
  refine ⟨f, .node st2.entries st2.comments st2.seccomment true, ?_, ?_⟩
  · unfold readConfig
    rw [hlines, hread]
  · simp only [stripMeta]
    rw [hsme, show (freshRH.entries : List (Line × CVal)) = [] from rfl, sme_nil_append]

/-- C2 witness: the round trip evaluated on a concrete two-level tree. -/
theorem write_read_roundtrip_witness :
    wfCVal c2Tree = true ∧ okEndCVal c2Tree = true ∧
    ∃ f t2, readConfig f (configWrite c2Tree) = some t2 ∧ stripMeta t2 = stripMeta c2Tree :=
  ⟨by decide, by simp [c2Tree, okEndCVal, okEndEntries, List.isEmpty],
    write_read_roundtrip _ _ _ _ (by decide)
      (by simp [c2Tree, okEndCVal, okEndEntries, List.isEmpty])⟩

theorem readConfig_mono {f f2 : Nat} {lines : List Line} {t : CVal}
    (hle : f ≤ f2) (h : readConfig f lines = some t) : readConfig f2 lines = some t := by
  unfold readConfig at h ⊢
  cases hr : readHelper f ⟨[], lines, 0⟩ 0 freshRH with
  | none => rw [hr] at h; exact absurd h (by simp)
  | some r =>
    obtain ⟨stx, pbx⟩ := r
    rw [hr] at h
    rw [readHelper_mono f f2 hle _ _ _ _ hr]
    exact h

/-- C2 counterexample: the unrestricted claim is false.  For the tree with
the single entry `a = "b#c"`, `write` emits the line `a = b#c`; on parsing,
the inline-comment split stores the value `a = b` (the whole text before
`#`, see C5) under key `a`, so no fuel makes the round trip return the
original keys and values. -/
theorem write_read_roundtrip_cex :
    ¬ ∃ f t2, readConfig f (configWrite c2CexTree) = some t2 ∧
      stripMeta t2 = stripMeta c2CexTree := by
  rintro ⟨f, t2, hread, hsme⟩
  have href : readConfig 2 (configWrite c2CexTree) =
      some (.node [(['a'], .str ['a', ' ', '=', ' ', 'b'])] [(['a'], [['c']])] [] true) := by
    decide
  have h1 := readConfig_mono (Nat.le_max_left f 2) hread
  have h2 := readConfig_mono (Nat.le_max_right f 2) href
  rw [h1] at h2
  have ht : t2 = .node [(['a'], .str ['a', ' ', '=', ' ', 'b'])] [(['a'], [['c']])] [] true :=
    Option.some.inj h2
  rw [ht] at hsme
  exact absurd hsme (by decide)

end Settingslib
